import Mathlib

/-!
Verification of the multivector / geometric-algebra library
(`geometric_algebra.py`): a shallow embedding of its data model and
operations, followed by theorems about them.

Conventions of the embedding:
* Python numbers (int/float) are modelled as rationals `ℚ`.
* A blade `[x, base_array]` is a pair `(x : ℚ, e : List ℤ)`.
* A signature dict is an association list `List (ℤ × ℚ)`; `none` models the
  absent signature.  Python's `if signature:` truthiness (false for `None`
  and for the empty dict) is modelled explicitly.
* A failing dict lookup (Python `KeyError`), a failing `assert`
  (`AssertionError`), `float()` on a non-scalar (`ValueError`) and division
  by zero (`ZeroDivisionError`) are modelled with `Except PyErr`.
* The in-place cursor loops of `simplify_element` and `simplify_blades`
  are modelled as zipper recursions: the state `(l, r)` stands for the
  Python list `l.reverse ++ r` with the cursor at index `l.length`.
-/

namespace GA

abbrev Elem := List ℤ
abbrev Blade := ℚ × Elem
abbrev Sig := List (ℤ × ℚ)

/-- The Python error kinds that the library can raise. -/
inductive PyErr where
  | keyErr      -- KeyError from a signature lookup
  | valueErr    -- ValueError (`Cannot convert to float` / `no inverse`)
  | zeroDivErr  -- ZeroDivisionError from 1/0
  | assertErr   -- AssertionError from a failed `assert`
deriving DecidableEq, Repr

/-- Lookup in a signature association list (Python `signature[i]`). -/
def sigFind : Sig → ℤ → Option ℚ
  | [], _ => none
  | (k, v) :: s, i => if k = i then some v else sigFind s i

/-- The factor contributed by contracting index `i`: Python multiplies by
`signature[i]` only when `signature` is truthy (neither `None` nor the
empty dict); otherwise the square is implicitly `+1`. -/
def sigSquare (sig : Option Sig) (i : ℤ) : Option ℚ :=
  match sig with
  | none => some 1
  | some s => if s.isEmpty then some 1 else sigFind s i

theorem sigSquare_none (i : ℤ) : sigSquare none i = some 1 := rfl

/-! ### Inversion counting, used for termination of the cursor loops -/

/-- Number of inverted pairs of a list with respect to a boolean
"greater-than" test `gt`. -/
def invCountBy (gt : α → α → Bool) : List α → ℕ
  | [] => 0
  | x :: xs => xs.countP (gt x) + invCountBy gt xs

theorem invCountBy_swap (gt : α → α → Bool) {a b : α}
    (hab : gt a b = true) (hba : gt b a = false) :
    ∀ (p q : List α),
      invCountBy gt (p ++ b :: a :: q) + 1 = invCountBy gt (p ++ a :: b :: q) := by
  intro p q
  induction p with
  | nil =>
      simp [invCountBy, List.countP_cons, hab, hba]
      omega
  | cons x p ih =>
      have h1 : List.countP (gt x) (p ++ b :: a :: q) =
          List.countP (gt x) (p ++ a :: b :: q) := by
        simp [List.countP_append, List.countP_cons, List.append_eq]
        omega
      simp only [List.cons_append, invCountBy, h1, List.append_eq]
      omega

theorem invCountBy_drop (gt : α → α → Bool) (x : α) :
    ∀ (p q : List α), invCountBy gt (p ++ q) ≤ invCountBy gt (p ++ x :: q) := by
  intro p q
  induction p with
  | nil =>
      simp only [List.nil_append, invCountBy]
      omega
  | cons y p ih =>
      have h1 : List.countP (gt y) (p ++ q) ≤
          List.countP (gt y) (p ++ x :: q) := by
        simp only [List.countP_append, List.countP_cons]
        omega
      simp only [List.cons_append, invCountBy, List.append_eq]
      omega

/-- Boolean strict greater-than on `ℤ`. -/
def gtI (x y : ℤ) : Bool := decide (y < x)

/-! ### The basis-element canonicalizer `simplify_element` -/

/-- Zipper form of the `while` loop of `simplify_element`.  The state
`(l, r, f)` stands for the Python list `l.reverse ++ r` with the cursor at
index `l.length` and running factor `f`; the loop body compares the first
two entries of `r`.  Returns `none` on `KeyError`. -/
def simplifyElementGo (sig : Option Sig) :
    List ℤ → List ℤ → ℚ → Option (List ℤ × ℚ)
  | l, a :: b :: r, f =>
    if a = b then
      -- repeated element -> contract; a failed lookup (KeyError) yields none
      (sigSquare sig a).bind fun s => simplifyElementGo sig l r (f * s)
    else if b < a then
      -- unsorted order -> swap (and step the cursor back if i > 0)
      match l with
      | [] => simplifyElementGo sig [] (b :: a :: r) (f * -1)
      | c :: l2 => simplifyElementGo sig l2 (c :: b :: a :: r) (f * -1)
    else
      -- go to the next element
      simplifyElementGo sig (a :: l) (b :: r) f
  | l, r, f => some (l.reverse ++ r, f)
termination_by l r _ =>
  3 * invCountBy gtI (l.reverse ++ r) + (l.reverse ++ r).length + r.length
decreasing_by
  · -- contraction: two elements removed, inversions do not increase
    have h1 := invCountBy_drop gtI a l.reverse r
    have h2 := invCountBy_drop gtI b l.reverse (a :: r)
    have hab : a = b := by assumption
    subst hab
    simp only [List.length_append, List.length_reverse, List.length_cons] at *
    omega
  · -- swap at cursor 0
    have h := invCountBy_swap gtI (a := a) (b := b)
      (by simp [gtI]; assumption) (by simp [gtI]; omega) [] r
    simp only [List.nil_append, List.reverse_nil, List.length_cons] at *
    omega
  · -- swap at cursor i > 0: the list is a permutation by one adjacent swap
    have h := invCountBy_swap gtI (a := a) (b := b)
      (by simp [gtI]; assumption) (by simp [gtI]; omega)
      (l2.reverse ++ [c]) r
    simp only [List.append_assoc, List.cons_append, List.nil_append] at h
    simp only [List.reverse_cons, List.append_assoc, List.cons_append,
      List.nil_append, List.length_append, List.length_reverse,
      List.length_cons]
    omega
  · -- advance
    simp only [List.reverse_cons, List.append_assoc, List.cons_append,
      List.nil_append, List.length_append, List.length_reverse,
      List.length_cons]
    omega

/-! Unfolding equations for the zipper loop of `simplify_element`. -/

theorem seg_term (sig : Option Sig) (l : List ℤ) (f : ℚ) :
    simplifyElementGo sig l [] f = some (l.reverse, f) := by
  rw [simplifyElementGo.eq_def]
  simp

theorem seg_one (sig : Option Sig) (l : List ℤ) (a : ℤ) (f : ℚ) :
    simplifyElementGo sig l [a] f = some (l.reverse ++ [a], f) := by
  rw [simplifyElementGo.eq_def]

theorem seg_contract {sig : Option Sig} {a b : ℤ} (hab : a = b) {s : ℚ}
    (hs : sigSquare sig a = some s) (l r : List ℤ) (f : ℚ) :
    simplifyElementGo sig l (a :: b :: r) f = simplifyElementGo sig l r (f * s) := by
  rw [simplifyElementGo.eq_def]
  subst hab
  simp [hs]

theorem seg_contract_none {sig : Option Sig} {a b : ℤ} (hab : a = b)
    (hs : sigSquare sig a = none) (l r : List ℤ) (f : ℚ) :
    simplifyElementGo sig l (a :: b :: r) f = none := by
  rw [simplifyElementGo.eq_def]
  subst hab
  simp [hs]

/-- Evaluation form of the contraction step, convenient for computing on
concrete inputs. -/
theorem seg_contract_eval {sig : Option Sig} {a b : ℤ} (hab : a = b)
    (hs : (sigSquare sig a).isSome = true) (l r : List ℤ) (f : ℚ) :
    simplifyElementGo sig l (a :: b :: r) f =
      simplifyElementGo sig l r (f * (sigSquare sig a).getD 1) := by
  rcases Option.isSome_iff_exists.mp hs with ⟨s, hs2⟩
  rw [seg_contract hab hs2, hs2]
  rfl

theorem seg_swap_nil {a b : ℤ} (hba : b < a) (sig : Option Sig)
    (r : List ℤ) (f : ℚ) :
    simplifyElementGo sig [] (a :: b :: r) f =
      simplifyElementGo sig [] (b :: a :: r) (f * -1) := by
  rw [simplifyElementGo.eq_def]
  have hab : ¬a = b := by omega
  simp [hab, hba]

theorem seg_swap_cons {a b : ℤ} (hba : b < a) (sig : Option Sig)
    (c : ℤ) (l2 r : List ℤ) (f : ℚ) :
    simplifyElementGo sig (c :: l2) (a :: b :: r) f =
      simplifyElementGo sig l2 (c :: b :: a :: r) (f * -1) := by
  rw [simplifyElementGo.eq_def]
  have hab : ¬a = b := by omega
  simp [hab, hba]

theorem seg_adv {a b : ℤ} (hab : a < b) (sig : Option Sig)
    (l r : List ℤ) (f : ℚ) :
    simplifyElementGo sig l (a :: b :: r) f =
      simplifyElementGo sig (a :: l) (b :: r) f := by
  rw [simplifyElementGo.eq_def]
  have h1 : ¬a = b := by omega
  have h2 : ¬b < a := by omega
  simp [h1, h2]

/-- `simplify_element(e, signature)`: returns the simplified basis element
and the factor it carries, or `none` on a `KeyError`. -/
def simplify_element (e : Elem) (sig : Option Sig := none) :
    Option (List ℤ × ℚ) :=
  simplifyElementGo sig [] e 1

/-! ### The blade-list simplifier `simplify_blades` -/

/-- Python list lexicographic `<` on integer lists. -/
def pyLt : List ℤ → List ℤ → Bool
  | [], [] => false
  | [], _ :: _ => true
  | _ :: _, [] => false
  | x :: xs, y :: ys => decide (x < y) || (decide (x = y) && pyLt xs ys)

/-- Python tuple comparison `(len(e1), e1) > (len(e2), e2)` used by the
blade sort order. -/
def keyGt (e1 e2 : Elem) : Bool :=
  decide (e2.length < e1.length) ||
    (decide (e2.length = e1.length) && pyLt e2 e1)

theorem pyLt_asymm : ∀ {a b : List ℤ}, pyLt a b = true → pyLt b a = false
  | [], [], h => by simp [pyLt] at h
  | [], _ :: _, _ => by simp [pyLt]
  | _ :: _, [], h => by simp [pyLt] at h
  | x :: xs, y :: ys, h => by
      simp only [pyLt, Bool.or_eq_true, Bool.and_eq_true, decide_eq_true_eq] at h
      rcases h with h | ⟨rfl, h⟩
      · have h1 : decide (y < x) = false := by simp only [decide_eq_false_iff_not]; omega
        have h2 : decide (y = x) = false := by simp only [decide_eq_false_iff_not]; omega
        simp [pyLt, h1, h2]
      · simp [pyLt, pyLt_asymm h]

theorem keyGt_asymm {a b : Elem} (h : keyGt a b = true) : keyGt b a = false := by
  simp only [keyGt, Bool.or_eq_true, Bool.and_eq_true, decide_eq_true_eq] at h
  rcases h with h | ⟨he, h⟩
  · have h1 : decide (a.length < b.length) = false := by simp only [decide_eq_false_iff_not]; omega
    have h2 : decide (a.length = b.length) = false := by simp only [decide_eq_false_iff_not]; omega
    simp [keyGt, h1, h2]
  · have h1 : decide (a.length < b.length) = false := by simp only [decide_eq_false_iff_not]; omega
    have h2 : decide (a.length = b.length) = true := by simp only [decide_eq_true_eq]; omega
    simp [keyGt, h1, h2, pyLt_asymm h]

theorem pyLt_irrefl : ∀ a : List ℤ, pyLt a a = false
  | [] => rfl
  | x :: xs => by simp [pyLt, pyLt_irrefl xs]

theorem keyGt_irrefl (a : Elem) : keyGt a a = false := by
  simp [keyGt, pyLt_irrefl]

theorem keyGt_ne {a b : Elem} (h : keyGt a b = true) : a ≠ b := by
  rintro rfl
  simp [keyGt_irrefl] at h

theorem pyLt_connex : ∀ {a b : List ℤ}, a ≠ b → pyLt a b = true ∨ pyLt b a = true
  | [], [], h => absurd rfl h
  | [], _ :: _, _ => Or.inl (by simp [pyLt])
  | _ :: _, [], _ => Or.inr (by simp [pyLt])
  | x :: xs, y :: ys, h => by
      rcases lt_trichotomy x y with hxy | hxy | hxy
      · left
        simp [pyLt, hxy]
      · subst hxy
        have hne : xs ≠ ys := fun he => h (by rw [he])
        rcases pyLt_connex hne with h1 | h1
        · left
          simp [pyLt, h1]
        · right
          simp [pyLt, h1]
      · right
        simp [pyLt, hxy]

theorem keyGt_connex {a b : Elem} (h : a ≠ b) :
    keyGt a b = true ∨ keyGt b a = true := by
  rcases lt_trichotomy a.length b.length with hl | hl | hl
  · right
    simp [keyGt, hl]
  · rcases pyLt_connex h with h1 | h1
    · right
      simp [keyGt, hl, h1]
    · left
      simp [keyGt, hl.symm, h1]
  · left
    simp [keyGt, hl]

theorem pyLt_trans : ∀ {a b c : List ℤ},
    pyLt a b = true → pyLt b c = true → pyLt a c = true
  | [], [], _, h1, _ => by simp [pyLt] at h1
  | [], _ :: _, [], _, h2 => by simp [pyLt] at h2
  | [], _ :: _, _ :: _, _, _ => by simp [pyLt]
  | _ :: _, [], _, h1, _ => by simp [pyLt] at h1
  | _ :: _, _ :: _, [], _, h2 => by simp [pyLt] at h2
  | x :: xs, y :: ys, z :: zs, h1, h2 => by
      simp only [pyLt, Bool.or_eq_true, Bool.and_eq_true,
        decide_eq_true_eq] at h1 h2 ⊢
      rcases h1 with h1 | ⟨he1, h1⟩
      · rcases h2 with h2 | ⟨he2, h2⟩
        · left
          omega
        · left
          omega
      · rcases h2 with h2 | ⟨he2, h2⟩
        · left
          omega
        · right
          exact ⟨by omega, pyLt_trans h1 h2⟩

theorem keyGt_trans {a b c : Elem} (h1 : keyGt a b = true)
    (h2 : keyGt b c = true) : keyGt a c = true := by
  simp only [keyGt, Bool.or_eq_true, Bool.and_eq_true,
    decide_eq_true_eq] at h1 h2 ⊢
  rcases h1 with h1 | ⟨he1, h1⟩
  · rcases h2 with h2 | ⟨he2, h2⟩
    · left
      omega
    · left
      omega
  · rcases h2 with h2 | ⟨he2, h2⟩
    · left
      omega
    · right
      exact ⟨by omega, pyLt_trans h2 h1⟩

/-- Two strictly sorted integer lists with the same members are equal. -/
theorem sorted_ext : ∀ {l1 l2 : List ℤ}, l1.Pairwise (· < ·) →
    l2.Pairwise (· < ·) → (∀ z, z ∈ l1 ↔ z ∈ l2) → l1 = l2
  | [], [], _, _, _ => rfl
  | [], b :: l2, _, _, hm => by
      have := (hm b).mpr (List.mem_cons_self b l2)
      simp at this
  | a :: l1, [], _, _, hm => by
      have := (hm a).mp (List.mem_cons_self a l1)
      simp at this
  | a :: l1, b :: l2, h1, h2, hm => by
      have hab : a = b := by
        by_contra hne
        have ha : a ∈ b :: l2 := (hm a).mp (List.mem_cons_self a l1)
        have hb : b ∈ a :: l1 := (hm b).mpr (List.mem_cons_self b l2)
        rcases List.mem_cons.mp ha with h | h
        · exact hne h
        · rcases List.mem_cons.mp hb with h' | h'
          · exact hne h'.symm
          · have hba : b < a := (List.pairwise_cons.mp h2).1 a h
            have hab2 : a < b := (List.pairwise_cons.mp h1).1 b h'
            omega
      subst hab
      have htail : ∀ z, z ∈ l1 ↔ z ∈ l2 := by
        intro z
        by_cases hz : z = a
        · subst hz
          constructor
          · intro h
            have := (List.pairwise_cons.mp h1).1 z h
            omega
          · intro h
            have := (List.pairwise_cons.mp h2).1 z h
            omega
        · constructor
          · intro h
            rcases List.mem_cons.mp ((hm z).mp (List.mem_cons_of_mem a h)) with
              h' | h'
            · exact absurd h' hz
            · exact h'
          · intro h
            rcases List.mem_cons.mp ((hm z).mpr (List.mem_cons_of_mem a h)) with
              h' | h'
            · exact absurd h' hz
            · exact h'
      exact congrArg (a :: ·)
        (sorted_ext (List.pairwise_cons.mp h1).2 (List.pairwise_cons.mp h2).2 htail)

/-- Zipper form of the `while` loop of `simplify_blades`; the state
`(l, r)` stands for the working list `l.reverse ++ r` with the cursor at
index `l.length`. -/
def simplifyBladesGo : List Blade → List Blade → List Blade
  | l, [] => l.reverse
  | l, b :: r =>
    if b.1 = 0 then
      -- remove any terms like 0 e_ (and step the cursor back if i > 0)
      match l with
      | c :: l2 => simplifyBladesGo l2 (c :: r)
      | [] => simplifyBladesGo [] r
    else
      match r with
      | [] => l.reverse ++ [b]  -- nothing left to compare, we are done
      | b2 :: r2 =>
        if b.2 = b2.2 then
          -- add together terms with the same e_
          simplifyBladesGo l ((b.1 + b2.1, b.2) :: r2)
        else if keyGt b.2 b2.2 then
          -- sort (and step the cursor back if i > 0)
          match l with
          | c :: l2 => simplifyBladesGo l2 (c :: b2 :: b :: r2)
          | [] => simplifyBladesGo [] (b2 :: b :: r2)
        else
          simplifyBladesGo (b :: l) (b2 :: r2)
termination_by l r =>
  3 * invCountBy keyGt ((l.reverse ++ r).map Prod.snd) +
    ((l.reverse ++ r).map Prod.snd).length + r.length
decreasing_by
  · -- zero removal at cursor i > 0
    have h := invCountBy_drop keyGt b.2
      (l2.reverse.map Prod.snd ++ [c.2]) (r.map Prod.snd)
    simp only [List.reverse_cons, List.map_append, List.map_cons,
      List.map_reverse, List.map_nil, List.append_assoc, List.cons_append,
      List.nil_append, List.length_append, List.length_map,
      List.length_reverse, List.length_cons] at *
    omega
  · -- zero removal at cursor 0
    have h := invCountBy_drop keyGt b.2 [] (r.map Prod.snd)
    simp only [List.reverse_nil, List.nil_append, List.map_cons,
      List.length_cons, List.length_map] at *
    omega
  · -- merge of equal basis elements
    have h := invCountBy_drop keyGt b2.2
      (l.reverse.map Prod.snd ++ [b.2]) (r2.map Prod.snd)
    simp only [List.map_append, List.map_cons, List.map_reverse,
      List.append_assoc, List.cons_append, List.nil_append,
      List.length_append, List.length_map, List.length_reverse,
      List.length_cons] at *
    omega
  · -- swap at cursor i > 0
    have h := invCountBy_swap keyGt (a := b.2) (b := b2.2)
      (by assumption) (keyGt_asymm (by assumption))
      (l2.reverse.map Prod.snd ++ [c.2]) (r2.map Prod.snd)
    simp only [List.reverse_cons, List.map_append, List.map_cons,
      List.map_reverse, List.map_nil, List.append_assoc, List.cons_append,
      List.nil_append, List.length_append, List.length_map,
      List.length_reverse, List.length_cons] at *
    omega
  · -- swap at cursor 0
    have h := invCountBy_swap keyGt (a := b.2) (b := b2.2)
      (by assumption) (keyGt_asymm (by assumption)) [] (r2.map Prod.snd)
    simp only [List.reverse_nil, List.nil_append, List.map_cons,
      List.length_cons, List.length_map] at *
    omega
  · -- advance
    simp only [List.reverse_cons, List.map_append, List.map_cons,
      List.map_reverse, List.map_nil, List.append_assoc, List.cons_append,
      List.nil_append, List.length_append, List.length_map,
      List.length_reverse, List.length_cons]
    omega

/-- `simplify_blades(v)`: the blades of a multivector, simplified. -/
def simplify_blades (v : List Blade) : List Blade :=
  simplifyBladesGo [] v

/-! ### Denotation and canonicity of blade lists -/

/-- The coefficient a blade list assigns to the basis element `k` (the sum
of the coefficients of its blades carrying that element). -/
def den : List Blade → Elem → ℚ
  | [], _ => 0
  | b :: r, k => (if b.2 = k then b.1 else 0) + den r k

theorem den_append (l1 l2 : List Blade) (k : Elem) :
    den (l1 ++ l2) k = den l1 k + den l2 k := by
  induction l1 with
  | nil => simp [den]
  | cons b l1 ih =>
      simp only [List.cons_append, den, ih, List.append_eq]
      ring

theorem den_perm {l1 l2 : List Blade} (h : l1.Perm l2) (k : Elem) :
    den l1 k = den l2 k := by
  induction h with
  | nil => rfl
  | cons x _ ih => simp [den, ih]
  | swap x y l =>
      simp only [den]
      ring
  | trans _ _ ih1 ih2 => exact ih1.trans ih2

theorem den_eq_zero_of_ne {t : List Blade} {k : Elem}
    (h : ∀ b ∈ t, b.2 ≠ k) : den t k = 0 := by
  induction t with
  | nil => rfl
  | cons b t ih =>
      simp only [den, if_neg (h b (List.mem_cons_self b t)),
        ih fun b2 hb2 => h b2 (List.mem_cons_of_mem b hb2)]
      ring

/-! Unfolding equations for the zipper loop of `simplify_blades`. -/

theorem sbg_nil (l : List Blade) : simplifyBladesGo l [] = l.reverse := by
  rw [simplifyBladesGo.eq_def]

theorem sbg_pop_cons {b : Blade} (hb : b.1 = 0) (c : Blade)
    (l2 r : List Blade) :
    simplifyBladesGo (c :: l2) (b :: r) = simplifyBladesGo l2 (c :: r) := by
  rw [simplifyBladesGo.eq_def]
  simp [hb]

theorem sbg_pop_nil {b : Blade} (hb : b.1 = 0) (r : List Blade) :
    simplifyBladesGo [] (b :: r) = simplifyBladesGo [] r := by
  rw [simplifyBladesGo.eq_def]
  simp [hb]

theorem sbg_last {b : Blade} (hb : ¬b.1 = 0) (l : List Blade) :
    simplifyBladesGo l [b] = l.reverse ++ [b] := by
  rw [simplifyBladesGo.eq_def]
  simp [hb]

theorem sbg_merge {b b2 : Blade} (hb : ¬b.1 = 0) (he : b.2 = b2.2)
    (l r2 : List Blade) :
    simplifyBladesGo l (b :: b2 :: r2) =
      simplifyBladesGo l ((b.1 + b2.1, b.2) :: r2) := by
  rw [simplifyBladesGo.eq_def]
  simp [hb, he]

theorem sbg_swap_cons {b b2 : Blade} (hb : ¬b.1 = 0) (hne : ¬b.2 = b2.2)
    (hgt : keyGt b.2 b2.2 = true) (c : Blade) (l2 r2 : List Blade) :
    simplifyBladesGo (c :: l2) (b :: b2 :: r2) =
      simplifyBladesGo l2 (c :: b2 :: b :: r2) := by
  rw [simplifyBladesGo.eq_def]
  simp [hb, hne, hgt]

theorem sbg_swap_nil {b b2 : Blade} (hb : ¬b.1 = 0) (hne : ¬b.2 = b2.2)
    (hgt : keyGt b.2 b2.2 = true) (r2 : List Blade) :
    simplifyBladesGo [] (b :: b2 :: r2) =
      simplifyBladesGo [] (b2 :: b :: r2) := by
  rw [simplifyBladesGo.eq_def]
  simp [hb, hne, hgt]

theorem sbg_adv {b b2 : Blade} (hb : ¬b.1 = 0) (hne : ¬b.2 = b2.2)
    (hgt : ¬keyGt b.2 b2.2 = true) (l r2 : List Blade) :
    simplifyBladesGo l (b :: b2 :: r2) =
      simplifyBladesGo (b :: l) (b2 :: r2) := by
  rw [simplifyBladesGo.eq_def]
  simp [hb, hne, hgt]

/-- `simplify_blades` preserves the denotation of a blade list. -/
theorem den_simplifyBladesGo (k : Elem) : ∀ l r,
    den (simplifyBladesGo l r) k = den (l.reverse ++ r) k := by
  intro l r
  induction l, r using simplifyBladesGo.induct with
  | case1 l => rw [sbg_nil]; simp
  | case2 b r hb c l2 ih =>
      rw [sbg_pop_cons hb, ih]
      simp only [List.reverse_cons, List.append_assoc, List.cons_append,
        List.nil_append, den_append, den, hb]
      simp
  | case3 b r hb ih =>
      rw [sbg_pop_nil hb, ih]
      simp only [den, hb]
      simp
  | case4 l b hb => rw [sbg_last hb]
  | case5 l b hb b2 r2 he ih =>
      rw [sbg_merge hb he, ih]
      simp only [den_append, den, ← he]
      by_cases hk : b.2 = k
      · simp [hk]
        ring
      · simp [hk]
  | case6 b hb b2 r2 hne hgt c l2 ih =>
      rw [sbg_swap_cons hb hne hgt, ih]
      simp only [List.reverse_cons, List.append_assoc, List.cons_append,
        List.nil_append, den_append, den]
      ring
  | case7 b hb b2 r2 hne hgt ih =>
      rw [sbg_swap_nil hb hne hgt, ih]
      simp only [List.reverse_nil, List.nil_append, den]
      ring
  | case8 l b hb b2 r2 hne hgt ih =>
      rw [sbg_adv hb hne hgt, ih]
      simp only [List.reverse_cons, List.append_assoc, List.cons_append,
        List.nil_append]

theorem den_simplify_blades (v : List Blade) (k : Elem) :
    den (simplify_blades v) k = den v k := by
  rw [simplify_blades, den_simplifyBladesGo]
  rfl

/-- Every basis element occurring in the output of the simplifier already
occurs in its input. -/
theorem keys_simplifyBladesGo : ∀ l r b, b ∈ simplifyBladesGo l r →
    b.2 ∈ (l.reverse ++ r).map Prod.snd := by
  intro l r
  induction l, r using simplifyBladesGo.induct with
  | case1 l =>
      intro b hb
      rw [sbg_nil] at hb
      exact List.mem_map_of_mem Prod.snd (by simpa using hb)
  | case2 b r hb c l2 ih =>
      intro b3 hb3
      rw [sbg_pop_cons hb] at hb3
      have := ih b3 hb3
      simp only [List.reverse_cons, List.map_append, List.map_cons,
        List.mem_append, List.mem_cons, List.map_reverse] at this ⊢
      tauto
  | case3 b r hb ih =>
      intro b3 hb3
      rw [sbg_pop_nil hb] at hb3
      have := ih b3 hb3
      simp only [List.reverse_nil, List.nil_append, List.map_cons,
        List.mem_cons] at this ⊢
      tauto
  | case4 l b hb =>
      intro b3 hb3
      rw [sbg_last hb] at hb3
      exact List.mem_map_of_mem Prod.snd (by simpa using hb3)
  | case5 l b hb b2 r2 he ih =>
      intro b3 hb3
      rw [sbg_merge hb he] at hb3
      have := ih b3 hb3
      simp only [List.map_append, List.map_cons, List.mem_append,
        List.mem_cons, he] at this ⊢
      tauto
  | case6 b hb b2 r2 hne hgt c l2 ih =>
      intro b3 hb3
      rw [sbg_swap_cons hb hne hgt] at hb3
      have := ih b3 hb3
      simp only [List.reverse_cons, List.map_append, List.map_cons,
        List.mem_append, List.mem_cons, List.map_reverse] at this ⊢
      tauto
  | case7 b hb b2 r2 hne hgt ih =>
      intro b3 hb3
      rw [sbg_swap_nil hb hne hgt] at hb3
      have := ih b3 hb3
      simp only [List.reverse_nil, List.nil_append, List.map_cons,
        List.mem_cons] at this ⊢
      tauto
  | case8 l b hb b2 r2 hne hgt ih =>
      intro b3 hb3
      rw [sbg_adv hb hne hgt] at hb3
      have := ih b3 hb3
      simp only [List.reverse_cons, List.map_append, List.map_cons,
        List.mem_append, List.mem_cons, List.map_reverse] at this ⊢
      tauto

/-- The invariants of a simplified blade list: blades strictly ascending
in the Python key order (hence with pairwise distinct basis elements) and
with no zero coefficients. -/
def BladesCanon (L : List Blade) : Prop :=
  L.Pairwise (fun b1 b2 => keyGt b2.2 b1.2 = true) ∧ ∀ b ∈ L, b.1 ≠ 0

theorem simplifyBladesGo_canon : ∀ l r,
    l.Pairwise (fun b1 b2 => keyGt b1.2 b2.2 = true) →
    (∀ b ∈ l, b.1 ≠ 0) →
    (∀ b ∈ l, ∀ b2, r.head? = some b2 → keyGt b2.2 b.2 = true) →
    BladesCanon (simplifyBladesGo l r) := by
  intro l r
  induction l, r using simplifyBladesGo.induct with
  | case1 l =>
      intro hl hl0 _
      rw [sbg_nil]
      exact ⟨List.pairwise_reverse.mpr hl,
        fun b hb => hl0 b (List.mem_reverse.mp hb)⟩
  | case2 b r hb c l2 ih =>
      intro hl hl0 hj
      rw [sbg_pop_cons hb]
      exact ih (List.pairwise_cons.mp hl).2
        (fun x hx => hl0 x (List.mem_cons_of_mem c hx))
        (fun x hx b2 hb2 => by
          cases hb2
          exact (List.pairwise_cons.mp hl).1 x hx)
  | case3 b r hb ih =>
      intro _ _ _
      rw [sbg_pop_nil hb]
      exact ih List.Pairwise.nil (by simp) (by simp)
  | case4 l b hb =>
      intro hl hl0 hj
      rw [sbg_last hb]
      constructor
      · rw [List.pairwise_append]
        refine ⟨List.pairwise_reverse.mpr hl, List.pairwise_singleton _ _, ?_⟩
        intro x hx y hy
        rw [List.mem_singleton.mp hy]
        exact hj x (List.mem_reverse.mp hx) b rfl
      · intro x hx
        rcases List.mem_append.mp hx with h | h
        · exact hl0 x (List.mem_reverse.mp h)
        · rw [List.mem_singleton.mp h]
          exact hb
  | case5 l b hb b2 r2 he ih =>
      intro hl hl0 hj
      rw [sbg_merge hb he]
      exact ih hl hl0 (fun x hx b3 hb3 => by
        cases hb3
        exact hj x hx b rfl)
  | case6 b hb b2 r2 hne hgt c l2 ih =>
      intro hl hl0 hj
      rw [sbg_swap_cons hb hne hgt]
      exact ih (List.pairwise_cons.mp hl).2
        (fun x hx => hl0 x (List.mem_cons_of_mem c hx))
        (fun x hx b3 hb3 => by
          cases hb3
          exact (List.pairwise_cons.mp hl).1 x hx)
  | case7 b hb b2 r2 hne hgt ih =>
      intro _ _ _
      rw [sbg_swap_nil hb hne hgt]
      exact ih List.Pairwise.nil (by simp) (by simp)
  | case8 l b hb b2 r2 hne hgt ih =>
      intro hl hl0 hj
      rw [sbg_adv hb hne hgt]
      have hgt2 : keyGt b2.2 b.2 = true := by
        rcases keyGt_connex hne with h | h
        · exact absurd h hgt
        · exact h
      refine ih ?_ ?_ ?_
      · exact List.pairwise_cons.mpr ⟨fun x hx => hj x hx b rfl, hl⟩
      · intro x hx
        rcases List.mem_cons.mp hx with h | h
        · rw [h]
          exact hb
        · exact hl0 x h
      · intro x hx b3 hb3
        cases hb3
        rcases List.mem_cons.mp hx with h | h
        · rw [h]
          exact hgt2
        · exact keyGt_trans hgt2 (hj x h b rfl)

theorem simplify_blades_canon (v : List Blade) :
    BladesCanon (simplify_blades v) :=
  simplifyBladesGo_canon [] v List.Pairwise.nil (by simp) (by simp)

/-- `simplify_blades` does not change an already canonical blade list. -/
theorem simplifyBladesGo_fixed : ∀ r l,
    (∀ b ∈ l, b.1 ≠ 0) → BladesCanon r →
    (∀ b ∈ l, ∀ b2, r.head? = some b2 → keyGt b2.2 b.2 = true) →
    simplifyBladesGo l r = l.reverse ++ r := by
  intro r
  induction r with
  | nil =>
      intro l _ _ _
      rw [sbg_nil]
      simp
  | cons b r ih =>
      intro l hl0 hr hj
      have hb : ¬b.1 = 0 := hr.2 b (List.mem_cons_self b r)
      cases r with
      | nil => rw [sbg_last hb]
      | cons b2 r2 =>
          have hgt : keyGt b2.2 b.2 = true :=
            (List.pairwise_cons.mp hr.1).1 b2 (List.mem_cons_self b2 r2)
          have hne : ¬b.2 = b2.2 := fun h => keyGt_ne hgt h.symm
          have hgtf : ¬keyGt b.2 b2.2 = true := by
            rw [keyGt_asymm hgt]
            simp
          rw [sbg_adv hb hne hgtf]
          rw [ih (b :: l) ?_ ?_ ?_]
          · simp
          · intro x hx
            rcases List.mem_cons.mp hx with h | h
            · rw [h]; exact hb
            · exact hl0 x h
          · exact ⟨(List.pairwise_cons.mp hr.1).2,
              fun x hx => hr.2 x (List.mem_cons_of_mem b hx)⟩
          · intro x hx b3 hb3
            cases hb3
            rcases List.mem_cons.mp hx with h | h
            · rw [h]
              exact hgt
            · exact keyGt_trans hgt (hj x h b rfl)

theorem simplify_blades_fixed {L : List Blade} (h : BladesCanon L) :
    simplify_blades L = L :=
  simplifyBladesGo_fixed L [] (by simp) h (by simp)

theorem den_head_canon {b : Blade} {t : List Blade}
    (h : (b :: t).Pairwise (fun b1 b2 => keyGt b2.2 b1.2 = true)) :
    den (b :: t) b.2 = b.1 := by
  simp only [den]
  rw [den_eq_zero_of_ne (fun x hx =>
    keyGt_ne ((List.pairwise_cons.mp h).1 x hx))]
  simp

/-- A canonical blade list is determined by its denotation. -/
theorem bladesCanon_unique : ∀ {l1 l2 : List Blade}, BladesCanon l1 →
    BladesCanon l2 → (∀ k, den l1 k = den l2 k) → l1 = l2
  | [], [], _, _, _ => rfl
  | [], b :: t, _, h2, hden => by
      have hz := (hden b.2).symm
      rw [den_head_canon h2.1] at hz
      simp only [den] at hz
      exact absurd hz (h2.2 b (List.mem_cons_self b t))
  | b :: t, [], h1, _, hden => by
      have hz := hden b.2
      rw [den_head_canon h1.1] at hz
      simp only [den] at hz
      exact absurd hz (h1.2 b (List.mem_cons_self b t))
  | b1 :: t1, b2 :: t2, h1, h2, hden => by
      have hkey : b1.2 = b2.2 := by
        by_contra hne
        rcases keyGt_connex hne with hgt | hgt
        · have h0 : den (b1 :: t1) b2.2 = 0 := by
            apply den_eq_zero_of_ne
            intro x hx
            rcases List.mem_cons.mp hx with h | h
            · rw [h]
              exact keyGt_ne hgt
            · intro hxk
              have hx1 : keyGt x.2 b1.2 = true :=
                (List.pairwise_cons.mp h1.1).1 x h
              rw [hxk] at hx1
              rw [keyGt_asymm hx1] at hgt
              exact Bool.noConfusion hgt
          have hz := (hden b2.2).symm
          rw [h0, den_head_canon h2.1] at hz
          exact absurd hz (h2.2 b2 (List.mem_cons_self b2 t2))
        · have h0 : den (b2 :: t2) b1.2 = 0 := by
            apply den_eq_zero_of_ne
            intro x hx
            rcases List.mem_cons.mp hx with h | h
            · rw [h]
              exact keyGt_ne hgt
            · intro hxk
              have hx1 : keyGt x.2 b2.2 = true :=
                (List.pairwise_cons.mp h2.1).1 x h
              rw [hxk] at hx1
              rw [keyGt_asymm hx1] at hgt
              exact Bool.noConfusion hgt
          have hz := hden b1.2
          rw [h0, den_head_canon h1.1] at hz
          exact absurd hz (h1.2 b1 (List.mem_cons_self b1 t1))
      have hcoef : b1.1 = b2.1 := by
        have hz := hden b1.2
        rw [den_head_canon h1.1, hkey, den_head_canon h2.1] at hz
        exact hz
      have htden : ∀ k, den t1 k = den t2 k := by
        intro k
        by_cases hk : b1.2 = k
        · rw [den_eq_zero_of_ne (fun x hx hxk => by
            have hx1 : keyGt x.2 b1.2 = true :=
              (List.pairwise_cons.mp h1.1).1 x hx
            rw [hxk, ← hk] at hx1
            rw [keyGt_irrefl] at hx1
            exact Bool.noConfusion hx1)]
          rw [den_eq_zero_of_ne (fun x hx hxk => by
            have hx1 : keyGt x.2 b2.2 = true :=
              (List.pairwise_cons.mp h2.1).1 x hx
            rw [hxk, ← hk, hkey] at hx1
            rw [keyGt_irrefl] at hx1
            exact Bool.noConfusion hx1)]
        · have hz := hden k
          simp only [den, if_neg hk, if_neg (hkey ▸ hk)] at hz
          linarith
      have hblade : b1 = b2 := Prod.ext hcoef hkey
      exact hblade ▸ congrArg (b1 :: ·)
        (bladesCanon_unique
          ⟨(List.pairwise_cons.mp h1.1).2, fun x hx =>
            h1.2 x (List.mem_cons_of_mem b1 hx)⟩
          ⟨(List.pairwise_cons.mp h2.1).2, fun x hx =>
            h2.2 x (List.mem_cons_of_mem b2 hx)⟩
          htden)

/-! ### The `MultiVector` value type and its operations

The Python methods copy blade lists before working on them; in this pure
model copying is the identity, so the copies are elided.  Fallible
operations return `Except PyErr`. -/

structure MultiVector where
  blades : List Blade
  signature : Option Sig
deriving DecidableEq, Repr

/-- `MultiVector.__init__`: stores the signature and the simplified
blades. -/
def MultiVector.init (blades : List Blade) (signature : Option Sig) :
    MultiVector :=
  ⟨simplify_blades blades, signature⟩

/-- `__add__` for a multivector right operand (the duck-typed scalar case
is `addNum`).  The `assert` about signatures is `assertErr`. -/
def MultiVector.add (A v : MultiVector) : Except PyErr MultiVector :=
  if v.signature = A.signature then
    .ok (MultiVector.init (A.blades ++ v.blades) A.signature)
  else
    .error .assertErr

/-- `__add__`/`__radd__` with a number: the scalar becomes the blade
`[v, []]`. -/
def MultiVector.addNum (A : MultiVector) (x : ℚ) : MultiVector :=
  MultiVector.init (A.blades ++ [(x, [])]) A.signature

/-- `__neg__`. -/
def MultiVector.neg (A : MultiVector) : MultiVector :=
  MultiVector.init (A.blades.map fun b => (-b.1, b.2)) A.signature

/-- `__sub__` with a multivector right operand. -/
def MultiVector.sub (A v : MultiVector) : Except PyErr MultiVector :=
  A.add v.neg

/-- One term of the geometric product: `[factor * x * y, elem]` where
`elem, factor = simplify_element(ei + ej, signature)`. -/
def mulTerm (sig : Option Sig) (a b : Blade) : Option Blade :=
  (simplify_element (a.2 ++ b.2) sig).map fun ef => (ef.2 * a.1 * b.1, ef.1)

/-- The two nested loops of `__mul__`, in loop order, before the
`KeyError` check. -/
def prodRows (sig : Option Sig) : List Blade → List Blade → List (Option Blade)
  | [], _ => []
  | a :: as2, bs => bs.map (mulTerm sig a) ++ prodRows sig as2 bs

/-- Collect a list of possibly-failed terms, failing if any term failed. -/
def optList : List (Option α) → Option (List α)
  | [] => some []
  | none :: _ => none
  | some x :: rest => (optList rest).map (x :: ·)

/-- The raw product blade list of `__mul__` (set of `|A|*|B|` terms), or
`none` on a `KeyError` from a signature lookup. -/
def mulList (sig : Option Sig) (as2 bs : List Blade) : Option (List Blade) :=
  optList (prodRows sig as2 bs)

/-- `__mul__` with a multivector right operand (geometric product). -/
def MultiVector.mul (A v : MultiVector) : Except PyErr MultiVector :=
  if v.signature = A.signature then
    match mulList A.signature A.blades v.blades with
    | none => .error .keyErr
    | some l => .ok (MultiVector.init l A.signature)
  else
    .error .assertErr

/-- `__mul__`/`__rmul__` with a number: the scalar becomes the blade
`[v, []]` and the signature assert is skipped. -/
def MultiVector.mulNum (A : MultiVector) (x : ℚ) : Except PyErr MultiVector :=
  match mulList A.signature A.blades [(x, [])] with
  | none => .error .keyErr
  | some l => .ok (MultiVector.init l A.signature)

/-- `reverse()`: negate the coefficient of each blade of grade `r` with
`(r / 2) % 2 == 1`. -/
def MultiVector.reverse (A : MultiVector) : MultiVector :=
  MultiVector.init
    (A.blades.map fun b => if (b.2.length / 2) % 2 = 1 then (-b.1, b.2) else b)
    A.signature

/-- `__float__`: `0.0` for the empty multivector, the coefficient for a
single scalar blade, otherwise a `ValueError` (modelled as `none`). -/
def floatQ (A : MultiVector) : Option ℚ :=
  match A.blades with
  | [] => some 0
  | [(x, [])] => some x
  | _ => none

/-- `__truediv__` with a number: `1/v` raises `ZeroDivisionError` on zero,
otherwise multiply by the scalar multivector `[[1/v, []]]`. -/
def MultiVector.divNum (A : MultiVector) (x : ℚ) : Except PyErr MultiVector :=
  if x = 0 then .error .zeroDivErr
  else A.mul (MultiVector.init [(1 / x, [])] A.signature)

/-- `__truediv__` with a multivector right operand: the whole
`try`/`except ValueError` block.  Only the `ValueError` of `float()` is
caught (and re-raised as the no-inverse `ValueError`); a `KeyError` from a
product and the `ZeroDivisionError` of `v_r / 0.0` propagate unchanged. -/
def MultiVector.div (A v : MultiVector) : Except PyErr MultiVector :=
  if v.signature = A.signature then
    match v.mul v.reverse with
    | .error e => .error e
    | .ok p =>
      match floatQ p with
      | none => .error .valueErr
      | some n2 =>
        if n2 = 0 then .error .zeroDivErr
        else
          match v.reverse.mul (MultiVector.init [(1 / n2, [])] v.signature) with
          | .error e => .error e
          | .ok vinv => A.mul vinv
  else
    .error .assertErr

/-- `__rtruediv__`: `number / multivector`. -/
def MultiVector.rdivNum (A : MultiVector) (x : ℚ) : Except PyErr MultiVector :=
  match A.mul A.reverse with
  | .error e => .error e
  | .ok p =>
    match floatQ p with
    | none => .error .valueErr
    | some n2 =>
      if n2 = 0 then .error .zeroDivErr
      else
        match A.reverse.mul (MultiVector.init [(1 / n2, [])] A.signature) with
        | .error e => .error e
        | .ok inv => inv.mulNum x

/-- The running value of the `v *= self` loop of `__pow__`: it starts as
the Python int `1` and becomes a multivector after the first iteration. -/
inductive NumOrMV where
  | num (x : ℚ)
  | mv (A : MultiVector)
deriving DecidableEq, Repr

/-- One iteration `v *= self` of `__pow__` (when `v` is still a number,
`int.__mul__` defers to `self.__rmul__`). -/
def mulStep (A : MultiVector) : NumOrMV → Except PyErr NumOrMV
  | .num x => (A.mulNum x).map .mv
  | .mv w => (w.mul A).map .mv

/-- The `for i in range(abs(n)): v *= self` loop of `__pow__`. -/
def powLoop (A : MultiVector) : ℕ → Except PyErr NumOrMV
  | 0 => .ok (.num 1)
  | k + 1 => powLoop A k >>= mulStep A

/-- `__pow__` (the `assert type(n) == int` is enforced by the type of
`n`). -/
def MultiVector.pow (A : MultiVector) (n : ℤ) : Except PyErr NumOrMV :=
  match powLoop A n.natAbs with
  | .error e => .error e
  | .ok v =>
    if 0 ≤ n then .ok v
    else
      match v with
      | .num x => if x = 0 then .error .zeroDivErr else .ok (.num (1 / x))
      | .mv w => (w.rdivNum 1).map .mv

/-- `__getitem__`: the grade-projection operator `<A>_r`. -/
def MultiVector.getItem (A : MultiVector) (r : ℕ) : MultiVector :=
  MultiVector.init (A.blades.filter fun b => b.2.length = r) A.signature

/-- `dot(a, b)`: inner product via grade projection `(a*b)[abs(ga-gb)]`,
with the two `assert`s of the source. -/
def dot (a b : MultiVector) : Except PyErr MultiVector :=
  let gradesA := a.blades.map fun bl => bl.2.length
  let gradesB := b.blades.map fun bl => bl.2.length
  match gradesA, gradesB with
  | [], _ => .error .assertErr
  | _, [] => .error .assertErr
  | ga :: _, gb :: _ =>
    if gradesA.all (· = ga) && gradesB.all (· = gb) then
      (a.mul b).map fun p => p.getItem ((ga : ℤ) - gb).natAbs
    else
      .error .assertErr

/-- `wedge(a, b)`: outer product via grade projection `(a*b)[ga+gb]`. -/
def wedge (a b : MultiVector) : Except PyErr MultiVector :=
  let gradesA := a.blades.map fun bl => bl.2.length
  let gradesB := b.blades.map fun bl => bl.2.length
  match gradesA, gradesB with
  | [], _ => .error .assertErr
  | _, [] => .error .assertErr
  | ga :: _, gb :: _ =>
    if gradesA.all (· = ga) && gradesB.all (· = gb) then
      (a.mul b).map fun p => p.getItem (ga + gb)
    else
      .error .assertErr

/-! ### Merging two canonical elements

`simplify_element` is used by the geometric product on inputs of the form
`ei ++ ej` with both halves canonical.  On such inputs the cursor loop
inserts the elements of the right half one at a time into the sorted
prefix; `mergeStep`/`mergeRun` below describe that process, and
`mElems`/`mFac` give the closed form (symmetric difference, crossing sign
and contracted squares). -/

/-- Sorted insertion of `x` into a list. -/
def insSorted (x : ℤ) : List ℤ → List ℤ
  | [] => [x]
  | y :: ys => if x < y then x :: y :: ys else y :: insSorted x ys

/-- One insertion of the merge: `x` bubbles into the sorted prefix `p`
(one sign flip per element of `p` greater than `x`) and either contracts
with its duplicate (with the signature factor) or lands in its slot. -/
def mergeStep (sig : Option Sig) (x : ℤ) (pf : List ℤ × ℚ) :
    Option (List ℤ × ℚ) :=
  if x ∈ pf.1 then
    (sigSquare sig x).map fun s =>
      (pf.1.erase x, pf.2 * (-1) ^ pf.1.countP (fun y => decide (x < y)) * s)
  else
    some (insSorted x pf.1,
      pf.2 * (-1) ^ pf.1.countP (fun y => decide (x < y)))

/-- Merging a sorted pending list `t` into the state `(p, f)`. -/
def mergeRun (sig : Option Sig) : List ℤ × ℚ → List ℤ → Option (List ℤ × ℚ)
  | pf, [] => some pf
  | pf, x :: t => (mergeStep sig x pf).bind fun pf2 => mergeRun sig pf2 t

/-- The element part of the merge of `t` into `p` (the symmetric
difference, kept sorted). -/
def mElems (p t : List ℤ) : List ℤ :=
  t.foldl (fun q x => if x ∈ q then q.erase x else insSorted x q) p

/-- Number of pairs `(y, x)` with `y` in `p`, `x` in `t` and `y > x`. -/
def crossCount (p t : List ℤ) : ℕ :=
  (t.map fun x => p.countP fun y => decide (x < y)).sum

/-- Product of the squares of the indices of `l` (a missing signature
entry defaults to `1`; only used when all entries are present). -/
def prodSq (sig : Option Sig) (l : List ℤ) : ℚ :=
  (l.map fun i => (sigSquare sig i).getD 1).prod

/-- The factor produced by merging `t` into `p`. -/
def mFac (sig : Option Sig) (p t : List ℤ) : ℚ :=
  (-1) ^ crossCount p t * prodSq sig (t.filter (· ∈ p))

theorem mem_insSorted (x z : ℤ) : ∀ p, z ∈ insSorted x p ↔ z = x ∨ z ∈ p
  | [] => by simp [insSorted]
  | y :: ys => by
      by_cases h : x < y
      · simp [insSorted, h]
      · simp only [insSorted, if_neg h, List.mem_cons, mem_insSorted x z ys]
        tauto

theorem insSorted_middle (x : ℤ) : ∀ A B, (∀ a ∈ A, a < x) →
    (∀ b ∈ B, x < b) → insSorted x (A ++ B) = A ++ x :: B
  | [], [], _, _ => by simp [insSorted]
  | [], b :: B2, _, hB => by
      have := hB b (List.mem_cons_self b B2)
      simp [insSorted, this]
  | a :: A2, B, hA, hB => by
      have ha := hA a (List.mem_cons_self a A2)
      have h1 : ¬x < a := by omega
      simp only [List.cons_append, insSorted, if_neg h1, List.append_eq]
      rw [insSorted_middle x A2 B (fun y hy => hA y (List.mem_cons_of_mem a hy)) hB]

theorem insSorted_sorted {x : ℤ} : ∀ {p : List ℤ}, p.Pairwise (· < ·) →
    x ∉ p → (insSorted x p).Pairwise (· < ·)
  | [], _, _ => by simp [insSorted]
  | y :: ys, hp, hx => by
      by_cases h : x < y
      · rw [insSorted, if_pos h]
        refine List.pairwise_cons.mpr ⟨?_, hp⟩
        intro z hz
        rcases List.mem_cons.mp hz with h2 | h2
        · omega
        · have := (List.pairwise_cons.mp hp).1 z h2
          omega
      · have hne : x ≠ y := fun he => hx (he ▸ List.mem_cons_self y ys)
        rw [insSorted, if_neg h]
        refine List.pairwise_cons.mpr ⟨?_, ?_⟩
        · intro z hz
          rcases (mem_insSorted x z ys).mp hz with h2 | h2
          · omega
          · exact (List.pairwise_cons.mp hp).1 z h2
        · exact insSorted_sorted (List.pairwise_cons.mp hp).2
            (fun hm => hx (List.mem_cons_of_mem y hm))

theorem insSorted_perm (x : ℤ) : ∀ p : List ℤ, (insSorted x p).Perm (x :: p)
  | [] => by simp [insSorted]
  | y :: ys => by
      by_cases h : x < y
      · rw [insSorted, if_pos h]
      · rw [insSorted, if_neg h]
        exact ((insSorted_perm x ys).cons y).trans (List.Perm.swap x y ys)

/-- On an already sorted working list the cursor loop only advances. -/
theorem seg_sorted_run (sig : Option Sig) : ∀ m l f,
    (l.reverse ++ m).Pairwise (· < ·) →
    simplifyElementGo sig l m f = some (l.reverse ++ m, f) := by
  intro m
  induction m with
  | nil =>
      intro l f _
      rw [seg_term]
      simp
  | cons a m2 ih =>
      intro l f h
      cases m2 with
      | nil => rw [seg_one]
      | cons b m3 =>
          have hab : a < b := by
            have h2 := (List.pairwise_append.mp h).2.1
            exact (List.pairwise_cons.mp h2).1 b (List.mem_cons_self b m3)
          rw [seg_adv hab]
          have hre : (a :: l).reverse ++ b :: m3 = l.reverse ++ a :: b :: m3 := by
            simp
          rw [ih (a :: l) f (by rwa [hre]), hre]

/-- A canonical element passes through `simplify_element` unchanged with
factor `1`. -/
theorem simplify_element_sorted (sig : Option Sig) (e : Elem)
    (he : e.Pairwise (· < ·)) : simplify_element e sig = some (e, 1) := by
  have h := seg_sorted_run sig e [] 1 (by simpa using he)
  simpa using h

theorem countP_gt_eq_zero {x : ℤ} {p : List ℤ} (h : ∀ y ∈ p, y < x) :
    p.countP (fun y => decide (x < y)) = 0 :=
  List.countP_eq_zero.mpr fun a ha => by
    have := h a ha
    simp only [decide_eq_true_eq]
    omega

theorem countP_gt_eq_length {x : ℤ} {p : List ℤ} (h : ∀ y ∈ p, x < y) :
    p.countP (fun y => decide (x < y)) = p.length :=
  List.countP_eq_length.mpr fun a ha => by
    simp only [decide_eq_true_eq]
    exact h a ha

theorem neg_one_pow_sq (n : ℕ) : ((-1 : ℚ)) ^ n * (-1) ^ n = 1 := by
  rw [← pow_add, ← two_mul, pow_mul]
  norm_num

theorem pairwise_mid {A B : List ℤ} {x : ℤ} (h : (A ++ B).Pairwise (· < ·))
    (hA : ∀ a ∈ A, a < x) (hB : ∀ b ∈ B, x < b) :
    (A ++ x :: B).Pairwise (· < ·) := by
  rcases List.pairwise_append.mp h with ⟨h1, h2, h3⟩
  refine List.pairwise_append.mpr ⟨h1, List.pairwise_cons.mpr ⟨hB, h2⟩, ?_⟩
  intro a ha b hb
  rcases List.mem_cons.mp hb with hb | hb
  · rw [hb]
    exact hA a ha
  · exact h3 a ha b hb

theorem pairwise_of_mid {A B : List ℤ} {x : ℤ}
    (h : (A ++ x :: B).Pairwise (· < ·)) : (A ++ B).Pairwise (· < ·) := by
  rcases List.pairwise_append.mp h with ⟨h1, h2, h3⟩
  exact List.pairwise_append.mpr ⟨h1, (List.pairwise_cons.mp h2).2,
    fun a ha b hb => h3 a ha b (List.mem_cons_of_mem x hb)⟩

/-- Landing lemma: once the bubbling element `x` sits in its sorted slot
(every element left of the cursor is smaller, everything in `M` is
bigger), the loop scans on and the merge theorem `H` for the pending list
`t` takes over. -/
theorem elementGo_land (sig : Option Sig) (N : ℕ)
    (H : ∀ t : List ℤ, t.length ≤ N → ∀ m l f,
      (l.reverse ++ m).Pairwise (· < ·) → t.Pairwise (· < ·) →
      (m = [] → ∀ x ∈ l, ∀ y ∈ t, x < y) →
      simplifyElementGo sig l (m ++ t) f = mergeRun sig (l.reverse ++ m, f) t) :
    ∀ L x M t f, t.length ≤ N →
    (L.reverse ++ x :: M).Pairwise (· < ·) →
    (∀ y ∈ t, x < y) →
    t.Pairwise (· < ·) →
    simplifyElementGo sig L (x :: (M ++ t)) f =
      mergeRun sig (L.reverse ++ x :: M, f) t := by
  intro L x M t f htN hP hxt ht
  cases M with
  | nil =>
      cases t with
      | nil =>
          simp only [List.nil_append, List.append_nil]
          rw [seg_one]
          rfl
      | cons y t2 =>
          have hxy : x < y := hxt y (List.mem_cons_self y t2)
          have hstep : simplifyElementGo sig L (x :: ([] ++ y :: t2)) f =
              simplifyElementGo sig (x :: L) ([y] ++ t2) f := by
            rw [List.nil_append, seg_adv hxy]
            rfl
          rw [hstep]
          have hN2 : t2.length ≤ N := by
            simp only [List.length_cons] at htN
            omega
          have hxL : ∀ a ∈ L.reverse, a < x := by
            intro a ha
            exact (List.pairwise_append.mp hP).2.2 a ha x
              (List.mem_cons_self x [])
          have h0 : ((L.reverse ++ [x]) ++ y :: ([] : List ℤ)).Pairwise
              (· < ·) := by
            refine pairwise_mid (A := L.reverse ++ [x]) (B := ([] : List ℤ))
              ?_ ?_ (by simp)
            · simpa using hP
            · intro a ha
              rcases List.mem_append.mp ha with h | h
              · have := hxL a h
                omega
              · rcases List.mem_singleton.mp h with h2
                omega
          have hPy : ((x :: L).reverse ++ [y]).Pairwise (· < ·) := by
            simpa using h0
          rw [H t2 hN2 [y] (x :: L) f hPy (List.pairwise_cons.mp ht).2 (by simp)]
          have hmem : y ∉ L.reverse ++ [x] := by
            intro hm
            rcases List.mem_append.mp hm with h | h
            · have := hxL y h
              omega
            · rcases List.mem_singleton.mp h with h2
              omega
          have hLx : L.reverse ++ x :: ([] : List ℤ) = L.reverse ++ [x] := rfl
          rw [hLx]
          simp only [mergeRun, mergeStep, if_neg hmem, Option.some_bind]
          have hins : insSorted y (L.reverse ++ [x]) =
              L.reverse ++ [x] ++ [y] := by
            have h0 := insSorted_middle y (L.reverse ++ [x]) []
              (by
                intro a ha
                rcases List.mem_append.mp ha with h | h
                · have := hxL a h
                  omega
                · rcases List.mem_singleton.mp h with h2
                  omega)
              (by simp)
            simpa using h0
          have hcnt : (L.reverse ++ [x]).countP (fun z => decide (y < z)) = 0 :=
            countP_gt_eq_zero (by
              intro a ha
              rcases List.mem_append.mp ha with h | h
              · have := hxL a h
                omega
              · rcases List.mem_singleton.mp h with h2
                omega)
          rw [hins, hcnt]
          simp only [List.reverse_cons, List.append_assoc, List.cons_append,
            List.nil_append, pow_zero, mul_one]
  | cons M0 M1 =>
      have hxM : ∀ b ∈ M0 :: M1, x < b :=
        (List.pairwise_cons.mp (List.pairwise_append.mp hP).2.1).1
      have hxM0 : x < M0 := hxM M0 (List.mem_cons_self M0 M1)
      have hstep : simplifyElementGo sig L (x :: ((M0 :: M1) ++ t)) f =
          simplifyElementGo sig (x :: L) ((M0 :: M1) ++ t) f := by
        simp only [List.cons_append]
        rw [seg_adv hxM0]
      rw [hstep]
      have hPM : ((x :: L).reverse ++ M0 :: M1).Pairwise (· < ·) := by
        simp only [List.reverse_cons, List.append_assoc, List.cons_append,
          List.nil_append]
        exact hP
      rw [H t htN (M0 :: M1) (x :: L) f hPM ht (by simp)]
      simp only [List.reverse_cons, List.append_assoc, List.cons_append,
        List.nil_append]

/-- Bubbling one pending element `x` into the sorted prefix: the cursor
loop performs the swaps/contraction of one `mergeStep`, after which the
merge theorem `H` for the remaining pending list applies.  The factor
`(-1) ^ M.length` compensates for the swaps already performed — `M` holds
the elements `x` has already bubbled past, all greater than `x`. -/
theorem elementGo_bubble (sig : Option Sig) (N : ℕ)
    (H : ∀ t : List ℤ, t.length ≤ N → ∀ m l f,
      (l.reverse ++ m).Pairwise (· < ·) → t.Pairwise (· < ·) →
      (m = [] → ∀ x ∈ l, ∀ y ∈ t, x < y) →
      simplifyElementGo sig l (m ++ t) f = mergeRun sig (l.reverse ++ m, f) t) :
    ∀ l c x M t f, t.length ≤ N →
    (l.reverse ++ c :: M).Pairwise (· < ·) →
    (∀ b ∈ M, x < b) →
    (∀ y ∈ t, x < y) →
    t.Pairwise (· < ·) →
    simplifyElementGo sig l (c :: x :: (M ++ t)) f =
      (mergeStep sig x (l.reverse ++ c :: M, f * (-1) ^ M.length)).bind
        fun pf2 => mergeRun sig pf2 t := by
  intro l
  induction l with
  | nil =>
      intro c x M t f htN hP hMx hxt ht
      simp only [List.reverse_nil, List.nil_append] at hP ⊢
      rcases lt_trichotomy x c with hxc | hxc | hcx
      · -- x < c : one swap at cursor 0, then x sits in front
        rw [seg_swap_nil hxc]
        have hstep : simplifyElementGo sig [] (x :: c :: (M ++ t)) (f * -1) =
            simplifyElementGo sig [] (x :: ((c :: M) ++ t)) (f * -1) := rfl
        rw [hstep, elementGo_land sig N H [] x (c :: M) t (f * -1) htN
          (by
            simp only [List.reverse_nil, List.nil_append]
            refine List.pairwise_cons.mpr ⟨?_, hP⟩
            intro z hz
            rcases List.mem_cons.mp hz with h | h
            · omega
            · have := hMx z h
              omega)
          hxt ht]
        have hmem : x ∉ c :: M := by
          intro hm
          rcases List.mem_cons.mp hm with h | h
          · omega
          · have := hMx x h
            omega
        simp only [mergeStep, if_neg hmem, Option.some_bind]
        have hcnt : (c :: M).countP (fun y => decide (x < y)) = M.length + 1 := by
          rw [List.countP_cons, countP_gt_eq_length hMx]
          simp [hxc]
        have hins : insSorted x (c :: M) = x :: c :: M := by
          rw [insSorted, if_pos hxc]
        rw [hcnt, hins]
        have hA2 := neg_one_pow_sq M.length
        have hfe : f * (-1 : ℚ) ^ M.length * (-1) ^ (M.length + 1) = f * -1 := by
          rw [pow_succ]
          linear_combination (-f) * hA2
        rw [hfe]
        simp
      · -- x = c : contraction at the junction
        subst hxc
        cases hs : sigSquare sig x with
        | none =>
            rw [seg_contract_none rfl hs]
            have hmem : x ∈ x :: M := List.mem_cons_self x M
            simp [mergeStep, if_pos hmem, hs]
        | some sx =>
            rw [seg_contract rfl hs]
            rw [H t htN M [] (f * sx)
              (by simpa using pairwise_of_mid (A := []) (x := x) (B := M) hP)
              ht (by simp)]
            have hmem : x ∈ x :: M := List.mem_cons_self x M
            simp only [mergeStep, if_pos hmem, hs, Option.map_some',
              Option.some_bind]
            have hcnt : (x :: M).countP (fun y => decide (x < y)) = M.length := by
              rw [List.countP_cons, countP_gt_eq_length hMx]
              simp
            have hher : (x :: M).erase x = M := by
              simp
            rw [hcnt, hher]
            have hA2 := neg_one_pow_sq M.length
            have hfe : f * (-1 : ℚ) ^ M.length * (-1) ^ M.length * sx =
                f * sx := by
              linear_combination (f * sx) * hA2
            rw [hfe]
            simp
      · -- c < x : advance past c, x sits between c and M
        rw [seg_adv hcx]
        have hstep : simplifyElementGo sig [c] (x :: (M ++ t)) f =
            mergeRun sig ([c].reverse ++ x :: M, f) t := by
          refine elementGo_land sig N H [c] x M t f htN ?_ hxt ht
          simp only [List.reverse_cons, List.reverse_nil, List.nil_append,
            List.cons_append]
          exact pairwise_mid (A := [c]) (B := M) hP
            (by
              intro a ha
              rcases List.mem_singleton.mp ha with h
              omega)
            hMx
        rw [hstep]
        have hmem : x ∉ c :: M := by
          intro hm
          rcases List.mem_cons.mp hm with h | h
          · omega
          · have := hMx x h
            omega
        simp only [mergeStep, if_neg hmem, Option.some_bind]
        have hcnt : (c :: M).countP (fun y => decide (x < y)) = M.length := by
          rw [List.countP_cons, countP_gt_eq_length hMx]
          have h1 : ¬x < c := by omega
          simp [h1]
        have hins : insSorted x (c :: M) = c :: x :: M := by
          have h0 := insSorted_middle x [c] M
            (by
              intro a ha
              rcases List.mem_singleton.mp ha with h
              omega)
            hMx
          simpa using h0
        rw [hcnt, hins]
        have hA2 := neg_one_pow_sq M.length
        have hfe : f * (-1 : ℚ) ^ M.length * (-1) ^ M.length = f := by
          linear_combination f * hA2
        rw [hfe]
        simp
  | cons d l2 ih =>
      intro c x M t f htN hP hMx hxt ht
      have hre : (d :: l2).reverse ++ c :: M = l2.reverse ++ d :: c :: M := by
        simp
      have hcross : ∀ a ∈ (d :: l2).reverse, ∀ b ∈ c :: M, a < b :=
        (List.pairwise_append.mp hP).2.2
      rcases lt_trichotomy x c with hxc | hxc | hcx
      · -- x < c : swap, the cursor steps back onto d
        rw [seg_swap_cons hxc]
        have hstep := ih d x (c :: M) t (f * -1) htN
          (by rwa [hre] at hP)
          (by
            intro b hb
            rcases List.mem_cons.mp hb with h | h
            · omega
            · exact hMx b h)
          hxt ht
        have hre2 : c :: (M ++ t) = (c :: M) ++ t := rfl
        rw [hre2, hstep, ← hre]
        have hfe : f * -1 * (-1 : ℚ) ^ (c :: M).length =
            f * (-1) ^ M.length := by
          simp only [List.length_cons, pow_succ]
          ring
        rw [hfe]
      · -- x = c : contraction with the top of the prefix
        subst hxc
        cases hs : sigSquare sig x with
        | none =>
            rw [seg_contract_none rfl hs]
            have hmem : x ∈ (d :: l2).reverse ++ x :: M := by
              simp
            simp [mergeStep, if_pos hmem, hs]
        | some sx =>
            rw [seg_contract rfl hs]
            have hxL : ∀ a ∈ (d :: l2).reverse, a < x := by
              intro a ha
              exact hcross a ha x (List.mem_cons_self x M)
            rw [H t htN M (d :: l2) (f * sx)
              (pairwise_of_mid (A := (d :: l2).reverse) (x := x) (B := M) hP)
              ht
              (by
                intro hM0 z hz y hy
                have h1 := hxL z (List.mem_reverse.mpr hz)
                have h2 := hxt y hy
                omega)]
            have hmem : x ∈ (d :: l2).reverse ++ x :: M := by
              simp
            simp only [mergeStep, if_pos hmem, hs, Option.map_some',
              Option.some_bind]
            have hcnt : ((d :: l2).reverse ++ x :: M).countP
                (fun y => decide (x < y)) = M.length := by
              rw [List.countP_append, countP_gt_eq_zero hxL,
                List.countP_cons, countP_gt_eq_length hMx]
              simp
            have hher : ((d :: l2).reverse ++ x :: M).erase x =
                (d :: l2).reverse ++ M := by
              rw [List.erase_append_right _ (by
                intro hm
                have := hxL x hm
                omega)]
              simp
            rw [hcnt, hher]
            have hA2 := neg_one_pow_sq M.length
            have hfe : f * (-1 : ℚ) ^ M.length * (-1) ^ M.length * sx =
                f * sx := by
              linear_combination (f * sx) * hA2
            rw [hfe]
      · -- c < x : advance past c, x sits between c and M
        rw [seg_adv hcx]
        have hxL : ∀ a ∈ (d :: l2).reverse ++ [c], a < x := by
          intro a ha
          rcases List.mem_append.mp ha with h | h
          · have := hcross a h c (List.mem_cons_self c M)
            omega
          · rcases List.mem_singleton.mp h with h2
            omega
        have hstep : simplifyElementGo sig (c :: d :: l2) (x :: (M ++ t)) f =
            mergeRun sig ((c :: d :: l2).reverse ++ x :: M, f) t := by
          refine elementGo_land sig N H (c :: d :: l2) x M t f htN ?_ hxt ht
          simp only [List.reverse_cons, List.append_assoc, List.cons_append,
            List.nil_append]
          have h0 : ((d :: l2).reverse ++ [c] ++ x :: M).Pairwise (· < ·) := by
            refine pairwise_mid (A := (d :: l2).reverse ++ [c]) (B := M)
              ?_ hxL hMx
            simpa using hP
          simpa using h0
        rw [hstep]
        have hmem : x ∉ (d :: l2).reverse ++ c :: M := by
          intro hm
          rcases List.mem_append.mp hm with h | h
          · have := hxL x (List.mem_append.mpr (Or.inl h))
            omega
          · rcases List.mem_cons.mp h with h2 | h2
            · omega
            · have := hMx x h2
              omega
        simp only [mergeStep, if_neg hmem, Option.some_bind]
        have hcnt : ((d :: l2).reverse ++ c :: M).countP
            (fun y => decide (x < y)) = M.length := by
          rw [List.countP_append, List.countP_cons, countP_gt_eq_length hMx,
            countP_gt_eq_zero (fun a ha => by
              have := hxL a (List.mem_append.mpr (Or.inl ha))
              omega)]
          have h1 : ¬x < c := by omega
          simp [h1]
        have hins : insSorted x ((d :: l2).reverse ++ c :: M) =
            (d :: l2).reverse ++ c :: x :: M := by
          have h0 := insSorted_middle x ((d :: l2).reverse ++ [c]) M hxL hMx
          simp only [List.append_assoc, List.cons_append, List.nil_append] at h0
          exact h0
        rw [hcnt, hins]
        have hA2 := neg_one_pow_sq M.length
        have hfe : f * (-1 : ℚ) ^ M.length * (-1) ^ M.length = f := by
          linear_combination f * hA2
        rw [hfe]
        have hre3 : (c :: d :: l2).reverse ++ x :: M =
            (d :: l2).reverse ++ c :: x :: M := by
          simp
        rw [hre3]

/-- The merge theorem: started on a sorted prefix with a sorted pending
list `t` appended, the cursor loop of `simplify_element` computes exactly
the insertion merge `mergeRun`. -/
theorem elementGo_merge (sig : Option Sig) : ∀ N t, t.length ≤ N →
    ∀ m l f,
    (l.reverse ++ m).Pairwise (· < ·) →
    t.Pairwise (· < ·) →
    (m = [] → ∀ z ∈ l, ∀ y ∈ t, z < y) →
    simplifyElementGo sig l (m ++ t) f = mergeRun sig (l.reverse ++ m, f) t := by
  intro N
  induction N with
  | zero =>
      intro t htN m l f h1 h2 h3
      have ht0 : t = [] := List.length_eq_zero.mp (Nat.le_zero.mp htN)
      subst ht0
      rw [List.append_nil, seg_sorted_run sig m l f h1]
      rfl
  | succ N ihN =>
      intro t htN m l f h1 h2 h3
      cases t with
      | nil =>
          rw [List.append_nil, seg_sorted_run sig m l f h1]
          rfl
      | cons x t2 =>
          have hN2 : t2.length ≤ N := by
            simp only [List.length_cons] at htN
            omega
          have hxlt : ∀ y ∈ t2, x < y := (List.pairwise_cons.mp h2).1
          have ht2 : t2.Pairwise (· < ·) := (List.pairwise_cons.mp h2).2
          have key : ∀ m l f, (l.reverse ++ m).Pairwise (· < ·) →
              (m = [] → ∀ z ∈ l, ∀ y ∈ x :: t2, z < y) →
              simplifyElementGo sig l (m ++ x :: t2) f =
                mergeRun sig (l.reverse ++ m, f) (x :: t2) := by
            intro m
            induction m with
            | nil =>
                intro l f h1 h3
                have hlx : ∀ a ∈ l.reverse, a < x := fun a ha =>
                  h3 rfl a (List.mem_reverse.mp ha) x (List.mem_cons_self x t2)
                have hland := elementGo_land sig N ihN l x [] t2 f hN2
                  (pairwise_mid (A := l.reverse) (B := ([] : List ℤ))
                    (by simpa using h1) hlx (by simp))
                  hxlt ht2
                simp only [List.nil_append, List.append_nil] at hland ⊢
                rw [hland]
                have hmem : x ∉ l.reverse := fun hm => by
                  have := hlx x hm
                  omega
                simp only [mergeRun, mergeStep, if_neg hmem, Option.some_bind]
                have hins : insSorted x l.reverse = l.reverse ++ [x] := by
                  have h0 := insSorted_middle x l.reverse [] hlx (by simp)
                  simpa using h0
                rw [hins, countP_gt_eq_zero hlx]
                simp
            | cons mm mtail ih_m =>
                intro l f h1 h3
                cases mtail with
                | nil =>
                    have hb := elementGo_bubble sig N ihN l mm x [] t2 f hN2
                      h1 (by simp) hxlt ht2
                    simp only [List.nil_append] at hb
                    have hre : ([mm] ++ x :: t2) = mm :: x :: t2 := rfl
                    rw [hre, hb]
                    simp only [mergeRun, List.length_nil, pow_zero, mul_one]
                | cons m3 m4 =>
                    have hmm3 : mm < m3 := by
                      have h4 := (List.pairwise_append.mp h1).2.1
                      exact (List.pairwise_cons.mp h4).1 m3
                        (List.mem_cons_self m3 m4)
                    have hstep : simplifyElementGo sig l
                        ((mm :: m3 :: m4) ++ x :: t2) f =
                        simplifyElementGo sig (mm :: l)
                          ((m3 :: m4) ++ x :: t2) f := by
                      simp only [List.cons_append]
                      rw [seg_adv hmm3]
                    rw [hstep]
                    rw [ih_m (mm :: l) f
                      (by
                        simp only [List.reverse_cons, List.append_assoc,
                          List.cons_append, List.nil_append]
                        simpa using h1)
                      (by simp)]
                    simp
          exact key m l f h1 h3

/-- `simplify_element` on a concatenation of two canonical elements is the
insertion merge of the second into the first. -/
theorem simplify_element_merge (sig : Option Sig) (s t : List ℤ)
    (hs : s.Pairwise (· < ·)) (ht : t.Pairwise (· < ·)) :
    simplify_element (s ++ t) sig = mergeRun sig (s, 1) t := by
  have h := elementGo_merge sig t.length t le_rfl s [] 1 (by simpa using hs)
    ht (by simp)
  simpa using h

theorem mElems_nil (p : List ℤ) : mElems p [] = p := rfl

theorem mElems_cons (p : List ℤ) (x : ℤ) (t : List ℤ) :
    mElems p (x :: t) =
      mElems (if x ∈ p then p.erase x else insSorted x p) t := rfl

theorem crossCount_nil (p : List ℤ) : crossCount p [] = 0 := rfl

theorem crossCount_cons (p : List ℤ) (x : ℤ) (t : List ℤ) :
    crossCount p (x :: t) =
      p.countP (fun y => decide (x < y)) + crossCount p t := by
  simp [crossCount]

theorem crossCount_congr {p1 p2 t : List ℤ}
    (h : ∀ y ∈ t, p1.countP (fun z => decide (y < z)) =
      p2.countP (fun z => decide (y < z))) :
    crossCount p1 t = crossCount p2 t := by
  induction t with
  | nil => rfl
  | cons x t ih =>
      rw [crossCount_cons, crossCount_cons,
        h x (List.mem_cons_self x t),
        ih fun y hy => h y (List.mem_cons_of_mem x hy)]

theorem crossCount_erase {p t : List ℤ} {x : ℤ} (hx : x ∈ p)
    (ht : ∀ y ∈ t, x < y) : crossCount (p.erase x) t = crossCount p t := by
  refine crossCount_congr fun y hy => ?_
  have hperm := List.perm_cons_erase hx
  rw [hperm.countP_eq (fun z => decide (y < z)), List.countP_cons]
  have h1 : ¬y < x := by
    have := ht y hy
    omega
  simp [h1]

theorem crossCount_ins {p t : List ℤ} {x : ℤ}
    (ht : ∀ y ∈ t, x < y) : crossCount (insSorted x p) t = crossCount p t := by
  refine crossCount_congr fun y hy => ?_
  rw [(insSorted_perm x p).countP_eq (fun z => decide (y < z)), List.countP_cons]
  have h1 : ¬y < x := by
    have := ht y hy
    omega
  simp [h1]

theorem prodSq_nil (sig : Option Sig) : prodSq sig [] = 1 := rfl

theorem prodSq_cons (sig : Option Sig) (x : ℤ) (l : List ℤ) :
    prodSq sig (x :: l) = (sigSquare sig x).getD 1 * prodSq sig l := by
  simp [prodSq]

theorem prodSq_perm (sig : Option Sig) {l1 l2 : List ℤ} (h : l1.Perm l2) :
    prodSq sig l1 = prodSq sig l2 :=
  (h.map fun i => (sigSquare sig i).getD 1).prod_eq

theorem prodSq_append (sig : Option Sig) (l1 l2 : List ℤ) :
    prodSq sig (l1 ++ l2) = prodSq sig l1 * prodSq sig l2 := by
  simp [prodSq]

/-- Closed form of the insertion merge: the element part is the symmetric
difference and the factor is the crossing sign times the product of the
squares of the contracted indices. -/
theorem mergeRun_closed (sig : Option Sig) : ∀ t p f,
    p.Pairwise (· < ·) → t.Pairwise (· < ·) →
    (∀ x ∈ t, x ∈ p → (sigSquare sig x).isSome = true) →
    mergeRun sig (p, f) t = some (mElems p t, f * mFac sig p t) := by
  intro t
  induction t with
  | nil =>
      intro p f _ _ _
      simp [mergeRun, mElems_nil, mFac, crossCount_nil, prodSq_nil]
  | cons x t2 ih =>
      intro p f hp ht hsig
      have hxlt : ∀ y ∈ t2, x < y := (List.pairwise_cons.mp ht).1
      have ht2 : t2.Pairwise (· < ·) := (List.pairwise_cons.mp ht).2
      by_cases hxp : x ∈ p
      · rcases Option.isSome_iff_exists.mp
          (hsig x (List.mem_cons_self x t2) hxp) with ⟨sx, hs⟩
        have hstep : mergeRun sig (p, f) (x :: t2) =
            mergeRun sig
              (p.erase x, f * (-1) ^ p.countP (fun y => decide (x < y)) * sx)
              t2 := by
          simp [mergeRun, mergeStep, if_pos hxp, hs]
        rw [hstep]
        rw [ih (p.erase x) _ (hp.sublist (List.erase_sublist x p))
          ht2
          (fun z hz hz2 => hsig z (List.mem_cons_of_mem x hz)
            (List.mem_of_mem_erase hz2))]
        rw [mElems_cons, if_pos hxp]
        have hfeq : f * (-1 : ℚ) ^ p.countP (fun y => decide (x < y)) * sx *
            mFac sig (p.erase x) t2 = f * mFac sig p (x :: t2) := by
          have hcc : crossCount (p.erase x) t2 = crossCount p t2 :=
            crossCount_erase hxp hxlt
          have hfil : t2.filter (· ∈ p.erase x) = t2.filter (· ∈ p) := by
            refine List.filter_congr fun y hy => ?_
            have hne : y ≠ x := by
              have := hxlt y hy
              omega
            simp only [decide_eq_decide]
            exact List.mem_erase_of_ne hne
          have hfilx : (x :: t2).filter (· ∈ p) = x :: t2.filter (· ∈ p) := by
            simp [List.filter_cons, hxp]
          rw [mFac, mFac, hcc, hfil, hfilx, crossCount_cons, prodSq_cons,
            pow_add, hs]
          simp only [Option.getD_some]
          ring
        rw [hfeq]
      · have hstep : mergeRun sig (p, f) (x :: t2) =
            mergeRun sig
              (insSorted x p, f * (-1) ^ p.countP (fun y => decide (x < y)))
              t2 := by
          simp [mergeRun, mergeStep, if_neg hxp]
        rw [hstep]
        rw [ih (insSorted x p) _ (insSorted_sorted hp hxp) ht2
          (fun z hz hz2 => by
            have hne : z ≠ x := by
              have := hxlt z hz
              omega
            rcases (mem_insSorted x z p).mp hz2 with h | h
            · exact absurd h hne
            · exact hsig z (List.mem_cons_of_mem x hz) h)]
        rw [mElems_cons, if_neg hxp]
        have hfeq : f * (-1 : ℚ) ^ p.countP (fun y => decide (x < y)) *
            mFac sig (insSorted x p) t2 = f * mFac sig p (x :: t2) := by
          have hcc : crossCount (insSorted x p) t2 = crossCount p t2 :=
            crossCount_ins hxlt
          have hfil : t2.filter (· ∈ insSorted x p) = t2.filter (· ∈ p) := by
            refine List.filter_congr fun y hy => ?_
            have hne : y ≠ x := by
              have := hxlt y hy
              omega
            simp only [decide_eq_decide, mem_insSorted]
            constructor
            · intro h
              rcases h with h | h
              · exact absurd h hne
              · exact h
            · exact Or.inr
          have hfilx : (x :: t2).filter (· ∈ p) = t2.filter (· ∈ p) := by
            simp [List.filter_cons, hxp]
          rw [mFac, mFac, hcc, hfil, hfilx, crossCount_cons, pow_add]
          ring
        rw [hfeq]

theorem mElems_sorted : ∀ t p, p.Pairwise (· < ·) → t.Pairwise (· < ·) →
    (mElems p t).Pairwise (· < ·) := by
  intro t
  induction t with
  | nil => intro p hp _; exact hp
  | cons x t2 ih =>
      intro p hp ht
      rw [mElems_cons]
      by_cases hxp : x ∈ p
      · rw [if_pos hxp]
        exact ih _ (hp.sublist (List.erase_sublist x p))
          (List.pairwise_cons.mp ht).2
      · rw [if_neg hxp]
        exact ih _ (insSorted_sorted hp hxp) (List.pairwise_cons.mp ht).2

theorem mElems_mem : ∀ t p, p.Pairwise (· < ·) → t.Pairwise (· < ·) →
    ∀ z, z ∈ mElems p t ↔ ¬(z ∈ p ↔ z ∈ t) := by
  intro t
  induction t with
  | nil =>
      intro p _ _ z
      simp [mElems_nil]
  | cons x t2 ih =>
      intro p hp ht z
      have hxlt : ∀ y ∈ t2, x < y := (List.pairwise_cons.mp ht).1
      have hxt2 : x ∉ t2 := fun hm => by
        have := hxlt x hm
        omega
      rw [mElems_cons]
      by_cases hxp : x ∈ p
      · rw [if_pos hxp]
        rw [ih _ (hp.sublist (List.erase_sublist x p))
          (List.pairwise_cons.mp ht).2 z]
        by_cases hz : z = x
        · subst hz
          have hnd : p.Nodup := hp.imp fun h => LT.lt.ne h
          have h1 : z ∉ p.erase z := hnd.not_mem_erase
          simp [h1, hxt2, hxp]
        · have h1 : z ∈ p.erase x ↔ z ∈ p := List.mem_erase_of_ne hz
          simp only [h1, List.mem_cons, hz, false_or]
      · rw [if_neg hxp]
        rw [ih _ (insSorted_sorted hp hxp) (List.pairwise_cons.mp ht).2 z]
        by_cases hz : z = x
        · subst hz
          have h1 : z ∈ insSorted z p := (mem_insSorted z z p).mpr (Or.inl rfl)
          simp [h1, hxt2, hxp]
        · have h1 : z ∈ insSorted x p ↔ z ∈ p := by
            rw [mem_insSorted]
            constructor
            · intro h
              rcases h with h | h
              · exact absurd h hz
              · exact h
            · exact Or.inr
          simp only [h1, List.mem_cons, hz, false_or]

theorem crossCount_append (p1 p2 t : List ℤ) :
    crossCount (p1 ++ p2) t = crossCount p1 t + crossCount p2 t := by
  induction t with
  | nil => rfl
  | cons x t ih =>
      rw [crossCount_cons, crossCount_cons, crossCount_cons,
        List.countP_append]
      omega

theorem crossCount_perm {p1 p2 : List ℤ} (h : p1.Perm p2) (t : List ℤ) :
    crossCount p1 t = crossCount p2 t :=
  crossCount_congr fun _ _ => h.countP_eq _

theorem neg_one_pow_add_two_mul (X k : ℕ) :
    ((-1 : ℚ)) ^ (X + 2 * k) = (-1) ^ X := by
  rw [pow_add, pow_mul]
  norm_num

/-- The key factor identity behind the division round trip: merging `e`
into `a` and then merging `e` into the result together produce the same
factor as contracting `e` with itself (`e_a e_e e_e = (squares of e) e_a`). -/
theorem mFac_mul (sig : Option Sig) (a e : List ℤ)
    (ha : a.Pairwise (· < ·)) (he : e.Pairwise (· < ·)) :
    mFac sig a e * mFac sig (mElems a e) e = mFac sig e e := by
  have hand : a.Nodup := ha.imp fun h => LT.lt.ne h
  have hend : e.Nodup := he.imp fun h => LT.lt.ne h
  have hDmem : ∀ z, z ∈ mElems a e ↔ ¬(z ∈ a ↔ z ∈ e) := mElems_mem e a ha he
  have hDsorted : (mElems a e).Pairwise (· < ·) := mElems_sorted e a ha he
  have hDnd : (mElems a e).Nodup := hDsorted.imp fun h => LT.lt.ne h
  have hpa : (a.filter (fun z => decide (z ∈ e)) ++
      a.filter (fun z => !decide (z ∈ e))).Perm a :=
    List.filter_append_perm _ a
  have hpe : (e.filter (fun z => decide (z ∈ a)) ++
      e.filter (fun z => !decide (z ∈ a))).Perm e :=
    List.filter_append_perm _ e
  have hnd2 : (a.filter (fun z => !decide (z ∈ e)) ++
      e.filter (fun z => !decide (z ∈ a))).Nodup := by
    rw [List.nodup_append]
    refine ⟨hand.filter _, hend.filter _, ?_⟩
    intro z hz1 hz2
    simp only [List.mem_filter, Bool.not_eq_true', decide_eq_false_iff_not,
      decide_eq_true_eq] at hz1 hz2
    exact hz2.2 hz1.1
  have hDperm : (mElems a e).Perm
      (a.filter (fun z => !decide (z ∈ e)) ++
       e.filter (fun z => !decide (z ∈ a))) := by
    rw [List.perm_ext_iff_of_nodup hDnd hnd2]
    intro z
    rw [hDmem z]
    simp only [List.mem_append, List.mem_filter, Bool.not_eq_true',
      decide_eq_false_iff_not, decide_eq_true_eq]
    tauto
  have hA1E1 : a.filter (fun z => decide (z ∈ e)) =
      e.filter (fun z => decide (z ∈ a)) := by
    refine sorted_ext (ha.filter _) (he.filter _) fun z => ?_
    simp only [List.mem_filter, decide_eq_true_eq]
    tauto
  have hc_a : crossCount a e =
      crossCount (a.filter (fun z => decide (z ∈ e))) e +
      crossCount (a.filter (fun z => !decide (z ∈ e))) e := by
    rw [← crossCount_append]
    exact (crossCount_perm hpa e).symm
  have hc_D : crossCount (mElems a e) e =
      crossCount (a.filter (fun z => !decide (z ∈ e))) e +
      crossCount (e.filter (fun z => !decide (z ∈ a))) e := by
    rw [← crossCount_append]
    exact crossCount_perm hDperm e
  have hc_e : crossCount e e =
      crossCount (e.filter (fun z => decide (z ∈ a))) e +
      crossCount (e.filter (fun z => !decide (z ∈ a))) e := by
    rw [← crossCount_append]
    exact (crossCount_perm hpe e).symm
  have hsign : crossCount a e + crossCount (mElems a e) e =
      crossCount e e + 2 * crossCount (a.filter (fun z => !decide (z ∈ e))) e := by
    rw [hc_a, hc_D, hc_e, hA1E1]
    omega
  have hfD : e.filter (fun z => decide (z ∈ mElems a e)) =
      e.filter (fun z => !decide (z ∈ a)) := by
    refine List.filter_congr fun y hy => ?_
    have h1 : y ∈ mElems a e ↔ ¬y ∈ a := by
      rw [hDmem y]
      constructor
      · intro h h2
        exact h ⟨fun _ => hy, fun _ => h2⟩
      · intro h h2
        exact h (h2.mpr hy)
    rw [← decide_not]
    exact decide_eq_decide.mpr h1
  have hfee : e.filter (fun z => decide (z ∈ e)) = e :=
    List.filter_eq_self.mpr fun z hz => by simp [hz]
  have hprod : prodSq sig (e.filter (fun z => decide (z ∈ a))) *
      prodSq sig (e.filter (fun z => !decide (z ∈ a))) = prodSq sig e := by
    rw [← prodSq_append]
    exact prodSq_perm sig hpe
  have hpow : ((-1 : ℚ)) ^ crossCount a e * (-1) ^ crossCount (mElems a e) e =
      (-1) ^ crossCount e e := by
    rw [← pow_add, hsign, neg_one_pow_add_two_mul]
  rw [mFac, mFac, mFac, hfD, hfee]
  calc ((-1 : ℚ)) ^ crossCount a e *
        prodSq sig (e.filter (fun z => decide (z ∈ a))) *
        ((-1) ^ crossCount (mElems a e) e *
          prodSq sig (e.filter (fun z => !decide (z ∈ a)))) =
      ((-1) ^ crossCount a e * (-1) ^ crossCount (mElems a e) e) *
        (prodSq sig (e.filter (fun z => decide (z ∈ a))) *
          prodSq sig (e.filter (fun z => !decide (z ∈ a)))) := by ring
    _ = (-1) ^ crossCount e e * prodSq sig e := by rw [hpow, hprod]

/-! ### Pure sorting behaviour on duplicate-free inputs -/

theorem invCountBy_sorted_zero : ∀ {l : List ℤ}, l.Pairwise (· < ·) →
    invCountBy gtI l = 0
  | [], _ => rfl
  | x :: xs, h => by
      have h1 : List.countP (gtI x) xs = 0 :=
        List.countP_eq_zero.mpr fun a ha => by
          have := (List.pairwise_cons.mp h).1 a ha
          simp only [gtI, decide_eq_true_eq]
          omega
      simp [invCountBy, h1,
        invCountBy_sorted_zero (List.pairwise_cons.mp h).2]

/-- On a duplicate-free working list, the cursor loop of
`simplify_element` is a pure sign-tracking sort: it returns the sorted
permutation together with `f` times the parity of the inversion count. -/
theorem elementGo_nodup (sig : Option Sig) : ∀ l r f,
    l.Pairwise (fun x y => y < x) →
    (∀ x ∈ l, ∀ y, r.head? = some y → x < y) →
    (l.reverse ++ r).Nodup →
    ∀ s, s.Pairwise (· < ·) → (l.reverse ++ r).Perm s →
    simplifyElementGo sig l r f =
      some (s, f * (-1) ^ invCountBy gtI (l.reverse ++ r)) := by
  intro l r f
  induction l, r, f using simplifyElementGo.induct sig with
  | case1 l b r f ih =>
      intro _ _ hnd _ _ _
      exact absurd (List.mem_cons_self b r)
        (List.nodup_cons.mp (hnd.of_append_right)).1
  | case2 a b r f hne hba ih =>
      intro hl hj hnd s hs hperm
      simp only [List.reverse_nil, List.nil_append] at hnd hperm ⊢
      have hswap : (a :: b :: r).Perm (b :: a :: r) := List.Perm.swap b a r
      rw [seg_swap_nil hba]
      have h := ih List.Pairwise.nil (by simp) (by simpa using hswap.nodup hnd)
        s hs (by simpa using hswap.symm.trans hperm)
      simp only [List.reverse_nil, List.nil_append] at h
      rw [h]
      have hcount := invCountBy_swap gtI (a := a) (b := b)
        (by simp [gtI]; omega) (by simp [gtI]; omega) [] r
      simp only [List.nil_append] at hcount
      rw [← hcount]
      rw [pow_succ]
      ring
  | case3 a b r f hne hba c l2 ih =>
      intro hl hj hnd s hs hperm
      rw [seg_swap_cons hba]
      have hswap : ((c :: l2).reverse ++ a :: b :: r).Perm
          (l2.reverse ++ c :: b :: a :: r) := by
        simp only [List.reverse_cons, List.append_assoc, List.cons_append,
          List.nil_append]
        exact List.Perm.append_left l2.reverse
          ((List.Perm.swap b a r).cons c)
      have hlt : ∀ x ∈ l2, x < c := (List.pairwise_cons.mp hl).1
      have h := ih (List.pairwise_cons.mp hl).2
        (fun x hx y hy => by
          cases hy
          exact hlt x hx)
        (hswap.nodup hnd) s hs (hswap.symm.trans hperm)
      rw [h]
      have hcount := invCountBy_swap gtI (a := a) (b := b)
        (by simp [gtI]; omega) (by simp [gtI]; omega) (l2.reverse ++ [c]) r
      have hre : (c :: l2).reverse ++ a :: b :: r =
          (l2.reverse ++ [c]) ++ a :: b :: r := by
        simp
      have hre2 : l2.reverse ++ c :: b :: a :: r =
          (l2.reverse ++ [c]) ++ b :: a :: r := by
        simp
      rw [hre, hre2, ← hcount, pow_succ]
      ring
  | case4 l a b r f hne hba ih =>
      intro hl hj hnd s hs hperm
      rw [seg_adv (by omega)]
      have hre : (a :: l).reverse ++ b :: r = l.reverse ++ a :: b :: r := by
        simp
      have h := ih
        (List.pairwise_cons.mpr ⟨fun x hx => hj x hx a rfl, hl⟩)
        (fun x hx y hy => by
          cases hy
          rcases List.mem_cons.mp hx with h | h
          · omega
          · have := hj x h a rfl
            omega)
        (by rwa [hre]) s hs (by rwa [hre])
      rw [h, hre]
  | case5 l r f hterm =>
      intro hl hj hnd s hs hperm
      have hsorted : (l.reverse ++ r).Pairwise (· < ·) := by
        rw [List.pairwise_append]
        refine ⟨List.pairwise_reverse.mpr hl, ?_, ?_⟩
        · cases r with
          | nil => exact List.Pairwise.nil
          | cons y r2 =>
              cases r2 with
              | nil => exact List.pairwise_singleton _ _
              | cons y2 r3 => exact (hterm y y2 r3 rfl).elim
        · intro x hx y hy
          cases r with
          | nil => simp at hy
          | cons y0 r2 =>
              cases r2 with
              | nil =>
                  rw [List.mem_singleton.mp hy]
                  exact hj x (List.mem_reverse.mp hx) y0 rfl
              | cons y2 r3 => exact (hterm y0 y2 r3 rfl).elim
      have hse : l.reverse ++ r = s :=
        sorted_ext hsorted hs fun z => hperm.mem_iff
      have hz : invCountBy gtI (l.reverse ++ r) = 0 :=
        invCountBy_sorted_zero hsorted
      cases r with
      | nil =>
          rw [seg_term, hz]
          simp only [List.append_nil] at hse
          rw [hse]
          norm_num
      | cons y r2 =>
          cases r2 with
          | nil =>
              rw [seg_one, hz, hse]
              norm_num
          | cons y2 r3 => exact (hterm y y2 r3 rfl).elim

/-! ### The denotation of a product list, and bilinearity -/

theorem sum_map_addQ (l : List α) (f g : α → ℚ) :
    (l.map fun x => f x + g x).sum = (l.map f).sum + (l.map g).sum := by
  induction l with
  | nil => simp
  | cons x l ih =>
      simp only [List.map_cons, List.sum_cons, ih]
      ring

theorem optList_append_some : ∀ {xs ys : List (Option α)} {l : List α},
    optList (xs ++ ys) = some l →
    ∃ lx ly, optList xs = some lx ∧ optList ys = some ly ∧ l = lx ++ ly := by
  intro xs
  induction xs with
  | nil =>
      intro ys l h
      exact ⟨[], l, rfl, h, rfl⟩
  | cons x xs ih =>
      intro ys l h
      cases x with
      | none => simp [optList] at h
      | some v =>
          simp only [List.cons_append, optList, List.append_eq] at h
          cases hr : optList (xs ++ ys) with
          | none => rw [hr] at h; simp at h
          | some lr =>
              rw [hr] at h
              simp only [Option.map_some', Option.some_inj] at h
              rcases ih hr with ⟨lx, ly, h1, h2, h3⟩
              exact ⟨v :: lx, ly, by simp [optList, h1], h2, by
                rw [← h, h3]
                rfl⟩

theorem optList_isSome : ∀ {xs : List (Option α)},
    (∀ x ∈ xs, x.isSome = true) → ∃ l, optList xs = some l := by
  intro xs
  induction xs with
  | nil => exact fun _ => ⟨[], rfl⟩
  | cons x xs ih =>
      intro h
      rcases Option.isSome_iff_exists.mp (h x (List.mem_cons_self x xs)) with
        ⟨v, hv⟩
      rcases ih (fun y hy => h y (List.mem_cons_of_mem x hy)) with ⟨l, hl⟩
      exact ⟨v :: l, by simp [hv, optList, hl]⟩

theorem optList_some_forall : ∀ {xs : List (Option α)} {l : List α},
    optList xs = some l → ∀ x ∈ xs, x.isSome = true := by
  intro xs
  induction xs with
  | nil => intro l _ x hx; simp at hx
  | cons x xs ih =>
      intro l h y hy
      cases x with
      | none => simp [optList] at h
      | some v =>
          simp only [optList] at h
          cases hr : optList xs with
          | none => rw [hr] at h; simp at h
          | some lr =>
              rcases List.mem_cons.mp hy with h2 | h2
              · rw [h2]; rfl
              · exact ih hr y h2

theorem mem_prodRows : ∀ {as bs : List Blade} {x : Option Blade},
    x ∈ prodRows sig as bs → ∃ a ∈ as, ∃ b ∈ bs, x = mulTerm sig a b := by
  intro as
  induction as with
  | nil => intro bs x hx; simp [prodRows] at hx
  | cons a as ih =>
      intro bs x hx
      rw [prodRows] at hx
      rcases List.mem_append.mp hx with h | h
      · rcases List.mem_map.mp h with ⟨b, hb, hb2⟩
        exact ⟨a, List.mem_cons_self a as, b, hb, hb2.symm⟩
      · rcases ih h with ⟨a2, ha2, b, hb, hb2⟩
        exact ⟨a2, List.mem_cons_of_mem a ha2, b, hb, hb2⟩

/-- If the canonicalization of every element pair succeeds, the raw
product list exists. -/
theorem mulList_isSome {as bs : List Blade}
    (h : ∀ a ∈ as, ∀ b ∈ bs,
      (simplify_element (a.2 ++ b.2) sig).isSome = true) :
    ∃ L, mulList sig as bs = some L := by
  refine optList_isSome fun x hx => ?_
  rcases mem_prodRows hx with ⟨a, ha, b, hb, hx2⟩
  rw [hx2, mulTerm]
  rw [Option.isSome_map']
  exact h a ha b hb

theorem mulTerm_mem_prodRows (sig : Option Sig) :
    ∀ {as bs : List Blade} {a b : Blade}, a ∈ as → b ∈ bs →
    mulTerm sig a b ∈ prodRows sig as bs
  | [], _, _, _, ha, _ => by simp at ha
  | a2 :: as, bs, a, b, ha, hb => by
      rw [prodRows]
      rcases List.mem_cons.mp ha with h2 | h2
      · subst h2
        exact List.mem_append.mpr (Or.inl (List.mem_map_of_mem _ hb))
      · exact List.mem_append.mpr
          (Or.inr (mulTerm_mem_prodRows sig h2 hb))

/-- Each pairwise canonicalization of a successful product succeeded. -/
theorem mulList_some_forall {as bs : List Blade} {L : List Blade}
    (h : mulList sig as bs = some L) :
    ∀ a ∈ as, ∀ b ∈ bs, (simplify_element (a.2 ++ b.2) sig).isSome = true := by
  intro a ha b hb
  have hx := optList_some_forall h (mulTerm sig a b)
    (mulTerm_mem_prodRows sig ha hb)
  rw [mulTerm, Option.isSome_map'] at hx
  exact hx

/-- The coefficient with which the product of `as` and a single blade of
element `e` contributes to the basis element `k`, per unit of the blade's
coefficient. -/
def cA (sig : Option Sig) (as : List Blade) (e k : Elem) : ℚ :=
  (as.map fun a =>
    match simplify_element (a.2 ++ e) sig with
    | some Ef => if Ef.1 = k then Ef.2 * a.1 else 0
    | none => 0).sum

theorem den_row (k : Elem) : ∀ (bs : List Blade) (a : Blade) (row : List Blade),
    optList (bs.map (mulTerm sig a)) = some row →
    den row k = (bs.map fun b =>
      (match simplify_element (a.2 ++ b.2) sig with
       | some Ef => if Ef.1 = k then Ef.2 * a.1 else 0
       | none => 0) * b.1).sum := by
  intro bs
  induction bs with
  | nil =>
      intro a row h
      simp only [List.map_nil, optList, Option.some_inj] at h
      rw [← h]
      simp [den]
  | cons b bs ih =>
      intro a row h
      rw [List.map_cons] at h
      cases hm : mulTerm sig a b with
      | none =>
          rw [hm] at h
          simp [optList] at h
      | some tb =>
          rw [hm] at h
          simp only [optList] at h
          cases hr : optList (bs.map (mulTerm sig a)) with
          | none =>
              rw [hr] at h
              simp at h
          | some rest =>
              rw [hr] at h
              simp only [Option.map_some', Option.some_inj] at h
              rw [← h]
              rw [mulTerm] at hm
              cases hse : simplify_element (a.2 ++ b.2) sig with
              | none => rw [hse] at hm; simp at hm
              | some Ef =>
                  rw [hse] at hm
                  simp only [Option.map_some', Option.some_inj] at hm
                  rw [← hm]
                  have hd : den ((Ef.2 * a.1 * b.1, Ef.1) :: rest) k =
                      (if Ef.1 = k then Ef.2 * a.1 * b.1 else 0) +
                        den rest k := rfl
                  rw [hd, ih a rest hr, List.map_cons, List.sum_cons, hse]
                  by_cases hk : Ef.1 = k
                  · simp only [hk, eq_self_iff_true, if_true]
                  · simp only [if_neg hk]
                    ring

/-- The denotation of a raw product list, blade by blade of the right
operand. -/
theorem den_mulList (k : Elem) : ∀ (as bs L : List Blade),
    mulList sig as bs = some L →
    den L k = (bs.map fun b => cA sig as b.2 k * b.1).sum := by
  intro as
  induction as with
  | nil =>
      intro bs L h
      simp only [mulList, prodRows, optList, Option.some_inj] at h
      rw [← h]
      have hc : ∀ b : Blade, cA sig [] b.2 k * b.1 = 0 := fun b => by
        simp [cA]
      simp only [hc]
      have : ∀ bs : List Blade, (bs.map fun _ => (0 : ℚ)).sum = 0 := by
        intro bs
        induction bs with
        | nil => rfl
        | cons x bs2 ih2 => simp [ih2]
      rw [this]
      rfl
  | cons a as ih =>
      intro bs L h
      rw [mulList, prodRows] at h
      rcases optList_append_some h with ⟨row, rest, h1, h2, h3⟩
      subst h3
      rw [den_append, den_row k bs a row h1, ih bs rest h2]
      rw [← sum_map_addQ]
      congr 1
      refine List.map_congr_left fun b hb => ?_
      have hcA : cA sig (a :: as) b.2 k =
          (match simplify_element (a.2 ++ b.2) sig with
           | some Ef => if Ef.1 = k then Ef.2 * a.1 else 0
           | none => 0) + cA sig as b.2 k := by
        rw [cA, cA, List.map_cons, List.sum_cons]
      rw [hcA]
      ring

theorem sum_zero_of_ne (v : Elem → ℚ) :
    ∀ (K : List Elem) (x : Elem), (∀ k ∈ K, x ≠ k) →
    (K.map fun k => if x = k then v k else 0).sum = 0 := by
  intro K
  induction K with
  | nil => intro x _; rfl
  | cons k K ih =>
      intro x h
      simp only [List.map_cons, List.sum_cons,
        if_neg (h k (List.mem_cons_self k K)),
        ih x fun k2 hk2 => h k2 (List.mem_cons_of_mem k hk2)]
      ring

theorem sum_single_hit (v : Elem → ℚ) :
    ∀ (K : List Elem) (x : Elem), K.Nodup → x ∈ K →
    (K.map fun k => if x = k then v k else 0).sum = v x := by
  intro K
  induction K with
  | nil => intro x _ hx; simp at hx
  | cons k K ih =>
      intro x hnd hx
      simp only [List.map_cons, List.sum_cons]
      by_cases hk : x = k
      · subst hk
        rw [if_pos rfl, sum_zero_of_ne v K x
          (fun k2 hk2 h2 => (List.nodup_cons.mp hnd).1 (h2 ▸ hk2))]
        ring
      · rw [if_neg hk, ih x (List.nodup_cons.mp hnd).2
          (by rcases List.mem_cons.mp hx with h | h
              · exact absurd h hk
              · exact h)]
        ring

theorem sum_via_keys (c : Elem → ℚ) :
    ∀ (V : List Blade) (K : List Elem), K.Nodup →
    (∀ b ∈ V, b.2 ∈ K) →
    (V.map fun b => c b.2 * b.1).sum = (K.map fun k => c k * den V k).sum := by
  intro V
  induction V with
  | nil =>
      intro K _ _
      simp [den]
  | cons b V ih =>
      intro K hnd hmem
      simp only [List.map_cons, List.sum_cons]
      rw [ih K hnd fun b2 hb2 => hmem b2 (List.mem_cons_of_mem b hb2)]
      have hden : ∀ k, den (b :: V) k = (if b.2 = k then b.1 else 0) + den V k :=
        fun k => rfl
      have hsplit : (K.map fun k => c k * den (b :: V) k).sum =
          (K.map fun k => if b.2 = k then c k * b.1 else 0).sum +
          (K.map fun k => c k * den V k).sum := by
        rw [← sum_map_addQ]
        refine congrArg List.sum (List.map_congr_left fun k _ => ?_)
        rw [hden k]
        by_cases hk : b.2 = k
        · subst hk
          simp only [eq_self_iff_true, if_true]
          ring
        · simp only [if_neg hk]
          ring
      rw [hsplit, sum_single_hit (fun k => c k * b.1) K b.2 hnd
        (hmem b (List.mem_cons_self b V))]

/-- Two blade lists with the same denotation produce the same weighted
sums over any per-element coefficient. -/
theorem sum_den_congr (c : Elem → ℚ) {V1 V2 : List Blade}
    (h : ∀ k, den V1 k = den V2 k) :
    (V1.map fun b => c b.2 * b.1).sum = (V2.map fun b => c b.2 * b.1).sum := by
  have hnd : ((V1 ++ V2).map Prod.snd).dedup.Nodup := List.nodup_dedup _
  have hm1 : ∀ b ∈ V1, b.2 ∈ ((V1 ++ V2).map Prod.snd).dedup := fun b hb =>
    List.mem_dedup.mpr (List.mem_map_of_mem Prod.snd
      (List.mem_append.mpr (Or.inl hb)))
  have hm2 : ∀ b ∈ V2, b.2 ∈ ((V1 ++ V2).map Prod.snd).dedup := fun b hb =>
    List.mem_dedup.mpr (List.mem_map_of_mem Prod.snd
      (List.mem_append.mpr (Or.inr hb)))
  rw [sum_via_keys c V1 _ hnd hm1, sum_via_keys c V2 _ hnd hm2]
  exact congrArg List.sum (List.map_congr_left fun k _ => by rw [h k])

/-- Inversion of a successful `__mul__` with a multivector operand. -/
theorem mul_ok_elim {A v R : MultiVector} (hsig : v.signature = A.signature)
    (h : A.mul v = .ok R) :
    ∃ L, mulList A.signature A.blades v.blades = some L ∧
      R = MultiVector.init L A.signature := by
  unfold MultiVector.mul at h
  rw [if_pos hsig] at h
  cases hm : mulList A.signature A.blades v.blades with
  | none =>
      rw [hm] at h
      exact Except.noConfusion h
  | some L =>
      rw [hm] at h
      exact ⟨L, rfl, (Except.ok.inj h).symm⟩

/-- Introduction form of a successful `__mul__`. -/
theorem mul_ok_intro {A v : MultiVector} (hsig : v.signature = A.signature)
    {L : List Blade} (hL : mulList A.signature A.blades v.blades = some L) :
    A.mul v = .ok (MultiVector.init L A.signature) := by
  unfold MultiVector.mul
  rw [if_pos hsig, hL]

/-- A single blade with nonzero coefficient is already simplified. -/
theorem simplify_blades_single {x : ℚ} (hx : x ≠ 0) (e : Elem) :
    simplify_blades [(x, e)] = [(x, e)] := by
  rw [simplify_blades, sbg_last hx]
  rfl

/-- A sorted pair of blades with nonzero coefficients is already
simplified. -/
theorem simplify_blades_pair {x y : ℚ} {e1 e2 : Elem} (hx : x ≠ 0)
    (hy : y ≠ 0) (hne : ¬e1 = e2) (hgt : ¬keyGt e1 e2 = true) :
    simplify_blades [(x, e1), (y, e2)] = [(x, e1), (y, e2)] := by
  rw [simplify_blades, sbg_adv hx hne hgt, sbg_last hy]
  rfl

/-- `__mul__` with a multivector operand returns a value, a `KeyError` or
an `AssertionError`; it never raises `ValueError` or
`ZeroDivisionError`. -/
theorem mul_cases (A v : MultiVector) :
    (∃ R, A.mul v = .ok R) ∨ A.mul v = .error .keyErr ∨
      A.mul v = .error .assertErr := by
  unfold MultiVector.mul
  by_cases h : v.signature = A.signature
  · rw [if_pos h]
    cases mulList A.signature A.blades v.blades with
    | none => exact Or.inr (Or.inl rfl)
    | some l => exact Or.inl ⟨_, rfl⟩
  · rw [if_neg h]
    exact Or.inr (Or.inr rfl)

/-- `__truediv__` when the divisor's self-product with its reverse is not
reducible to a float: the caught-and-rethrown `ValueError`. -/
theorem div_eval_none {A v : MultiVector} (hsig : v.signature = A.signature)
    {P : MultiVector} (hP : v.mul v.reverse = .ok P)
    (hf : floatQ P = none) : A.div v = .error .valueErr := by
  unfold MultiVector.div
  rw [if_pos hsig]
  simp only [hP, hf]

/-- `__truediv__` when the squared norm is the float `0.0`: the
`ZeroDivisionError` of `v_r / 0.0` (not a `ValueError`). -/
theorem div_eval_zero {A v : MultiVector} (hsig : v.signature = A.signature)
    {P : MultiVector} (hP : v.mul v.reverse = .ok P)
    (hf : floatQ P = some 0) : A.div v = .error .zeroDivErr := by
  unfold MultiVector.div
  rw [if_pos hsig]
  simp only [hP, hf]
  norm_num

/-- `__truediv__` with a nonzero squared norm reduces to the final product
`A * v_inv` once `v_inv` has been computed. -/
theorem div_eval_pos_ok {A v : MultiVector} (hsig : v.signature = A.signature)
    {P : MultiVector} (hP : v.mul v.reverse = .ok P) {n2 : ℚ}
    (hf : floatQ P = some n2) (h0 : ¬n2 = 0) {vinv : MultiVector}
    (hW : v.reverse.mul (MultiVector.init [(1 / n2, [])] v.signature) =
      .ok vinv) :
    A.div v = A.mul vinv := by
  unfold MultiVector.div
  rw [if_pos hsig]
  simp only [hP, hf]
  rw [if_neg h0]
  simp only [hW]

/-- `__truediv__` with a nonzero squared norm propagates an error raised
while computing `v_inv`. -/
theorem div_eval_pos_err {A v : MultiVector} (hsig : v.signature = A.signature)
    {P : MultiVector} (hP : v.mul v.reverse = .ok P) {n2 : ℚ}
    (hf : floatQ P = some n2) (h0 : ¬n2 = 0) {e : PyErr}
    (hW : v.reverse.mul (MultiVector.init [(1 / n2, [])] v.signature) =
      .error e) :
    A.div v = .error e := by
  unfold MultiVector.div
  rw [if_pos hsig]
  simp only [hP, hf]
  rw [if_neg h0]
  simp only [hW]

/-! ### The `v *= self` loop of `__pow__` as an n-fold product -/

/-- The `(n+1)`-fold geometric product `A * A * ... * A` (`nfoldGeom A n`
multiplies `n + 1` copies of `A`). -/
def nfoldGeom (A : MultiVector) : ℕ → Except PyErr MultiVector
  | 0 => .ok A
  | k + 1 =>
    match nfoldGeom A k with
    | .error e => .error e
    | .ok w => w.mul A

theorem except_bind_ok (a : α) (f : α → Except ε β) :
    (Except.ok a : Except ε α) >>= f = f a := rfl

theorem except_bind_err (e : ε) (f : α → Except ε β) :
    (Except.error e : Except ε α) >>= f = .error e := rfl

theorem except_map_ok (f : α → β) (a : α) :
    (Except.ok a : Except ε α).map f = .ok (f a) := rfl

theorem except_map_err (f : α → β) (e : ε) :
    (Except.error e : Except ε α).map f = .error e := rfl

/-- Multiplying `as` by the scalar blade `[1, []]` keeps every blade,
with the trivial factors of the source's loop. -/
theorem mulList_oneBlade (sig : Option Sig) : ∀ as : List Blade,
    (∀ b ∈ as, b.2.Pairwise (· < ·)) →
    mulList sig as [((1 : ℚ), ([] : List ℤ))] =
      some (as.map fun a => (1 * a.1 * 1, a.2)) := by
  intro as
  induction as with
  | nil => intro _; rfl
  | cons a as ih =>
      intro h
      have hse : simplify_element (a.2 ++ []) sig = some (a.2 ++ [], 1) :=
        simplify_element_sorted sig _
          (by simpa using h a (List.mem_cons_self a as))
      have hterm : mulTerm sig a ((1 : ℚ), ([] : List ℤ)) =
          some (1 * a.1 * 1, a.2) := by
        rw [mulTerm, hse, Option.map_some', List.append_nil]
      have hrest := ih fun b hb => h b (List.mem_cons_of_mem a hb)
      have hPR : prodRows sig (a :: as) [((1 : ℚ), ([] : List ℤ))] =
          some (1 * a.1 * 1, a.2) ::
            prodRows sig as [((1 : ℚ), ([] : List ℤ))] := by
        rw [prodRows, List.map_cons, List.map_nil, hterm, List.cons_append,
          List.nil_append]
      rw [mulList, hPR]
      simp only [optList]
      rw [show optList (prodRows sig as [((1 : ℚ), ([] : List ℤ))]) =
        some (as.map fun a2 => (1 * a2.1 * 1, a2.2)) from hrest,
        Option.map_some', List.map_cons]

/-- `1 * A` (the first `v *= self` iteration, through `__rmul__`) returns
`A` itself when `A` is canonical: its blade list is simplified and each
basis element is sorted. -/
theorem mulNum_one {A : MultiVector} (hcanon : BladesCanon A.blades)
    (hsorted : ∀ b ∈ A.blades, b.2.Pairwise (· < ·)) :
    A.mulNum 1 = .ok A := by
  unfold MultiVector.mulNum
  rw [mulList_oneBlade A.signature A.blades hsorted]
  have hmap : (A.blades.map fun a => ((1 : ℚ) * a.1 * 1, a.2)) = A.blades := by
    conv_rhs => rw [← List.map_id A.blades]
    exact List.map_congr_left fun a _ => by simp
  rw [hmap]
  show Except.ok (MultiVector.init A.blades A.signature) = Except.ok A
  unfold MultiVector.init
  rw [simplify_blades_fixed hcanon]

/-- The `__pow__` loop after `n + 1` iterations computes the
`(n+1)`-fold geometric product. -/
theorem powLoop_nfold {A : MultiVector} (hcanon : BladesCanon A.blades)
    (hsorted : ∀ b ∈ A.blades, b.2.Pairwise (· < ·)) :
    ∀ n : ℕ, powLoop A (n + 1) = (nfoldGeom A n).map NumOrMV.mv := by
  intro n
  induction n with
  | zero =>
      rw [powLoop, powLoop, except_bind_ok, mulStep,
        mulNum_one hcanon hsorted, nfoldGeom]
  | succ n ih =>
      rw [powLoop, ih, nfoldGeom]
      cases hw : nfoldGeom A n with
      | error e =>
          rw [except_map_err, except_bind_err]
      | ok w =>
          rw [except_map_ok, except_bind_ok, mulStep]

theorem pow_eval_nonneg {A : MultiVector} {n : ℤ} {v : NumOrMV}
    (hn : 0 ≤ n) (hl : powLoop A n.natAbs = .ok v) : A.pow n = .ok v := by
  unfold MultiVector.pow
  simp only [hl, hn, if_true]

theorem pow_eval_err {A : MultiVector} {n : ℤ} {e : PyErr}
    (hl : powLoop A n.natAbs = .error e) : A.pow n = .error e := by
  unfold MultiVector.pow
  simp only [hl]

theorem pow_eval_neg_mv {A : MultiVector} {n : ℤ} {w : MultiVector}
    (hn : n < 0) (hl : powLoop A n.natAbs = .ok (.mv w)) :
    A.pow n = (w.rdivNum 1).map NumOrMV.mv := by
  unfold MultiVector.pow
  have hn2 : ¬0 ≤ n := by omega
  simp only [hl, hn2, if_false]

/-! ### Helpers for the division round trip -/

/-- Closed form of the canonicalizer on a concatenation of two sorted
sequences (merge of the right half into the left). -/
theorem simplify_element_mergeClosed (sig : Option Sig) {s t : List ℤ}
    (hs : s.Pairwise (· < ·)) (ht : t.Pairwise (· < ·))
    (hsig2 : ∀ x ∈ t, x ∈ s → (sigSquare sig x).isSome = true) :
    simplify_element (s ++ t) sig = some (mElems s t, mFac sig s t) := by
  rw [simplify_element_merge sig s t hs ht,
    mergeRun_closed sig t s 1 hs ht hsig2, one_mul]

/-- The symmetric difference with `e` is an involution on sorted
sequences. -/
theorem mElems_invol {a e : List ℤ} (ha : a.Pairwise (· < ·))
    (he : e.Pairwise (· < ·)) : mElems (mElems a e) e = a := by
  have hD := mElems_sorted e a ha he
  refine sorted_ext (mElems_sorted e _ hD he) ha fun z => ?_
  rw [mElems_mem e _ hD he z, mElems_mem e a ha he z]
  tauto

/-- Merging a sorted sequence with itself cancels everything. -/
theorem mElems_self {e : List ℤ} (he : e.Pairwise (· < ·)) :
    mElems e e = [] := by
  refine List.eq_nil_iff_forall_not_mem.mpr fun z hz => ?_
  rw [mElems_mem e e he he z] at hz
  exact hz Iff.rfl

theorem prodSq_ne_zero {sig : Option Sig} : ∀ {l : List ℤ},
    (∀ i ∈ l, ∃ v, sigSquare sig i = some v ∧ v ≠ 0) → prodSq sig l ≠ 0
  | [], _ => by
      rw [prodSq_nil]
      norm_num
  | x :: l, h => by
      rw [prodSq_cons]
      rcases h x (List.mem_cons_self x l) with ⟨v, hv, hv0⟩
      have hrest := prodSq_ne_zero fun i hi => h i (List.mem_cons_of_mem x hi)
      rw [hv, Option.getD_some]
      exact mul_ne_zero hv0 hrest

/-- The merge factor is nonzero when every contracted square is nonzero. -/
theorem mFac_ne_zero {sig : Option Sig} {p t : List ℤ}
    (h : ∀ i ∈ t, ∃ v, sigSquare sig i = some v ∧ v ≠ 0) :
    mFac sig p t ≠ 0 := by
  rw [mFac]
  refine mul_ne_zero (pow_ne_zero _ (by norm_num)) (prodSq_ne_zero ?_)
  intro i hi
  exact h i (List.mem_of_mem_filter hi)

/-- The product of two single-blade lists. -/
theorem mulList_single {sig : Option Sig} {a b : Blade} {E : Elem} {f : ℚ}
    (h : simplify_element (a.2 ++ b.2) sig = some (E, f)) :
    mulList sig [a] [b] = some [(f * a.1 * b.1, E)] := by
  rw [mulList, prodRows, prodRows, List.map_cons, List.map_nil, mulTerm, h,
    Option.map_some', List.append_nil]
  rfl

/-- Multiplying a list of blades with sorted elements by a single blade
`(c, e)` merges `e` into every element. -/
theorem mulList_mergeRow {sig : Option Sig} {e : Elem}
    (he : e.Pairwise (· < ·))
    (hsq2 : ∀ i ∈ e, (sigSquare sig i).isSome = true) (c : ℚ) :
    ∀ as : List Blade, (∀ b ∈ as, b.2.Pairwise (· < ·)) →
    mulList sig as [(c, e)] =
      some (as.map fun a => (mFac sig a.2 e * a.1 * c, mElems a.2 e)) := by
  intro as
  induction as with
  | nil => intro _; rfl
  | cons a as ih =>
      intro h
      have hse : simplify_element (a.2 ++ e) sig =
          some (mElems a.2 e, mFac sig a.2 e) :=
        simplify_element_mergeClosed sig
          (h a (List.mem_cons_self a as)) he fun x hx _ => hsq2 x hx
      have hterm : mulTerm sig a (c, e) =
          some (mFac sig a.2 e * a.1 * c, mElems a.2 e) := by
        rw [mulTerm, hse, Option.map_some']
      have hrest := ih fun b hb => h b (List.mem_cons_of_mem a hb)
      have hPR : prodRows sig (a :: as) [(c, e)] =
          some (mFac sig a.2 e * a.1 * c, mElems a.2 e) ::
            prodRows sig as [(c, e)] := by
        rw [prodRows, List.map_cons, List.map_nil, hterm, List.cons_append,
          List.nil_append]
      rw [mulList, hPR]
      simp only [optList]
      rw [show optList (prodRows sig as [(c, e)]) =
        some (as.map fun a2 => (mFac sig a2.2 e * a2.1 * c, mElems a2.2 e))
        from hrest, Option.map_some', List.map_cons]

/-- The denotation as a sum over the blade list. -/
theorem den_eq_sum (l : List Blade) (k : Elem) :
    den l k = (l.map fun b => if b.2 = k then b.1 else 0).sum := by
  induction l with
  | nil => rfl
  | cons b t ih => rw [den, List.map_cons, List.sum_cons, ih]

/-! ### Evaluation lemmas for `dot` and `wedge` -/

theorem dot_err_left {a b : MultiVector} (ha : a.blades = []) :
    dot a b = .error .assertErr := by
  unfold dot
  simp only [ha, List.map_nil]

theorem dot_err_right {a b : MultiVector} {g : ℕ} {gs : List ℕ}
    (ha : a.blades.map (fun bl => bl.2.length) = g :: gs)
    (hb : b.blades = []) : dot a b = .error .assertErr := by
  unfold dot
  simp only [ha, hb, List.map_nil]

theorem wedge_err_left {a b : MultiVector} (ha : a.blades = []) :
    wedge a b = .error .assertErr := by
  unfold wedge
  simp only [ha, List.map_nil]

theorem wedge_err_right {a b : MultiVector} {g : ℕ} {gs : List ℕ}
    (ha : a.blades.map (fun bl => bl.2.length) = g :: gs)
    (hb : b.blades = []) : wedge a b = .error .assertErr := by
  unfold wedge
  simp only [ha, hb, List.map_nil]

theorem dot_eval {a b : MultiVector} {ga gb : ℕ} {asG bsG : List ℕ}
    (hga : a.blades.map (fun bl => bl.2.length) = ga :: asG)
    (hgb : b.blades.map (fun bl => bl.2.length) = gb :: bsG)
    (hallA : (ga :: asG).all (· = ga) = true)
    (hallB : (gb :: bsG).all (· = gb) = true) :
    dot a b = (a.mul b).map fun p => p.getItem ((ga : ℤ) - gb).natAbs := by
  unfold dot
  simp only [hga, hgb, hallA, hallB, Bool.and_self, if_true]

theorem wedge_eval {a b : MultiVector} {ga gb : ℕ} {asG bsG : List ℕ}
    (hga : a.blades.map (fun bl => bl.2.length) = ga :: asG)
    (hgb : b.blades.map (fun bl => bl.2.length) = gb :: bsG)
    (hallA : (ga :: asG).all (· = ga) = true)
    (hallB : (gb :: bsG).all (· = gb) = true) :
    wedge a b = (a.mul b).map fun p => p.getItem (ga + gb) := by
  unfold wedge
  simp only [hga, hgb, hallA, hallB, Bool.and_self, if_true]

/-! ### Claim theorems (first group) -/

/-- C1 (counterexample): `simplify_element` does NOT return a canonical
(ascending-sorted, duplicate-free) element for every raw input: on
`[1, 2, 2, 0]` the contraction step fails to step the cursor back, and the
returned element `[1, 0]` is not sorted. -/
theorem claim_C1_counterexample :
    simplify_element [1, 2, 2, 0] none = some ([1, 0], 1) ∧
      ¬ ([1, 0] : List ℤ).Pairwise (· < ·) := by
  constructor
  · rw [simplify_element, seg_adv (by norm_num), seg_contract rfl (sigSquare_none _), seg_one]
    norm_num
  · decide

/-- C3: every multivector produced by the constructor (and hence by every
arithmetic operation, each of which returns `MultiVector.init ...`)
satisfies the three post-construction invariants: no two blades share a
basis element, no blade has a zero coefficient, and the blades are sorted
strictly ascending by the Python key `(len(e), e)`.  This holds for every
input blade list, in particular for lists whose basis elements are already
canonical. -/
theorem claim_C3 (v : List Blade) (s : Option Sig) :
    ((MultiVector.init v s).blades.Pairwise fun b1 b2 => b1.2 ≠ b2.2) ∧
    (∀ b ∈ (MultiVector.init v s).blades, b.1 ≠ 0) ∧
    ((MultiVector.init v s).blades.Pairwise
      fun b1 b2 => keyGt b2.2 b1.2 = true) := by
  have h := simplify_blades_canon v
  exact ⟨h.1.imp fun hk => (keyGt_ne hk).symm, h.2, h.1⟩

/-- C4 (counterexample): with the supplied signature `S = {}` (the empty
dict) and index `1` outside its domain, canonicalizing `[1, 1]` does not
fail with a missing-entry error: Python's `if signature:` treats the empty
dict like an absent signature, so the square is taken to be `+1`. -/
theorem claim_C4_counterexample :
    simplify_element [1, 1] (some []) = some ([], 1) := by
  have h : sigSquare (some []) 1 = some 1 := rfl
  rw [simplify_element, seg_contract rfl h, seg_term]
  norm_num

/-- C4 (amended): for every NONEMPTY supplied signature `S` and index `i`,
canonicalizing `[i, i]` yields the empty element with factor `S[i]` when
`i` is in the domain of `S` (a zero square giving factor `0`), and fails
with the missing-entry `KeyError` when `i` is outside the domain — an
outcome distinct from the absent-signature case, where the square is
taken to be `+1`.  (The empty signature dict behaves like an absent one.) -/
theorem claim_C4 (S : Sig) (i : ℤ) (hS : S ≠ []) :
    (∀ v, sigFind S i = some v →
      simplify_element [i, i] (some S) = some (([] : List ℤ), v)) ∧
    (sigFind S i = none → simplify_element [i, i] (some S) = none) ∧
    simplify_element [i, i] none = some (([] : List ℤ), 1) := by
  have hsq : sigSquare (some S) i = sigFind S i := by
    cases S with
    | nil => exact absurd rfl hS
    | cons k s => simp [sigSquare, List.isEmpty]
  refine ⟨?_, ?_, ?_⟩
  · intro v hv
    rw [simplify_element, seg_contract rfl (hsq.trans hv), seg_term]
    norm_num
  · intro hv
    rw [simplify_element, seg_contract_none rfl (hsq.trans hv)]
  · rw [simplify_element, seg_contract rfl (sigSquare_none _), seg_term]
    norm_num

/-- C4 (witness): a concrete instance of the amended claim at
`S = {1: -1}`, `i = 1`, and at `S = {2: 1}`, `i = 1` (missing entry). -/
theorem claim_C4_witness :
    simplify_element [1, 1] (some [(1, -1)]) = some (([] : List ℤ), -1) ∧
    simplify_element [1, 1] (some [(2, 1)]) = none := by
  constructor
  · exact (claim_C4 [(1, -1)] 1 (by simp)).1 (-1) (by norm_num [sigFind])
  · exact (claim_C4 [(2, 1)] 1 (by simp)).2.1 (by norm_num [sigFind])

/-- C8: the constructor does mutate the caller-supplied blade list.
`MultiVector.__init__` passes `blades` straight to `simplify_blades`,
which edits it in place (its own comment: "The changes to v are made
in-place"), and stores the same list object.  In this pure model that
in-place mutation appears as the simplified value differing from the
input: the working list the caller passed ends up reordered. -/
theorem claim_C8 :
    simplify_blades [(5, [1, 2]), (3, [])] = [(3, []), (5, [1, 2])] ∧
    simplify_blades [(5, [1, 2]), (3, [])] ≠ [(5, [1, 2]), (3, [])] := by
  have h1 : simplify_blades [(5, [1, 2]), (3, [])] = [(3, []), (5, [1, 2])] := by
    rw [simplify_blades]
    rw [sbg_swap_nil (by norm_num) (by simp) (by norm_num [keyGt, pyLt])]
    rw [sbg_adv (by norm_num) (by simp) (by norm_num [keyGt, pyLt])]
    rw [sbg_last (by norm_num)]
    rfl
  exact ⟨h1, by rw [h1]; simp⟩

/-- C2: canonicalizing any permutation `p` of a duplicate-free strictly
increasing sequence `s` returns exactly `s`, with factor the sign of the
permutation — `(-1)` to the inversion count of `p`, the standard parity of
the permutation sorting `p` — regardless of the signature. -/
theorem claim_C2 (s p : List ℤ) (sig : Option Sig)
    (hs : s.Pairwise (· < ·)) (hperm : p.Perm s) :
    simplify_element p sig = some (s, (-1) ^ invCountBy gtI p) := by
  have hnd : p.Nodup :=
    hperm.symm.nodup (hs.imp fun h => LT.lt.ne h)
  have h := elementGo_nodup sig [] p 1 List.Pairwise.nil (by simp)
    (by simpa using hnd) s hs (by simpa using hperm)
  simp only [List.reverse_nil, List.nil_append, one_mul] at h
  exact h

/-- C2 (witness): `[3, 5, 2]` has two inversions (an even permutation of
`[2, 3, 5]`), so it canonicalizes to `([2, 3, 5], +1)`; the signature
`{1: -1, 2: +1}` plays no role since no index repeats. -/
theorem claim_C2_witness :
    simplify_element [3, 5, 2] (some [(1, -1), (2, 1)]) =
      some ([2, 3, 5], 1) := by
  have h := claim_C2 [2, 3, 5] [3, 5, 2] (some [(1, -1), (2, 1)])
    (by decide) (by decide)
  rw [h]
  norm_num [invCountBy, gtI, List.countP, List.countP.go]

/-- C1 (amended): for every input that is a concatenation of two canonical
(ascending-sorted, duplicate-free) sequences — the only inputs the
geometric product feeds to the canonicalizer — and any optional signature
defined on the indices they share, `simplify_element` returns a basis
element in canonical form together with a sign factor (the crossing sign
times the squares of the contracted indices).  For general raw inputs the
result can fail to be sorted (see the counterexample). -/
theorem claim_C1 (s t : List ℤ) (sig : Option Sig)
    (hs : s.Pairwise (· < ·)) (ht : t.Pairwise (· < ·))
    (hsig : ∀ x ∈ t, x ∈ s → (sigSquare sig x).isSome = true) :
    simplify_element (s ++ t) sig = some (mElems s t, mFac sig s t) ∧
      (mElems s t).Pairwise (· < ·) :=
  ⟨(simplify_element_merge sig s t hs ht).trans
      ((mergeRun_closed sig t s 1 hs ht hsig).trans (by rw [one_mul])),
   mElems_sorted t s hs ht⟩

/-- C1 (witness): the amended claim at the concrete input
`[1, 2] ++ [2, 3]` (the product `e12 * e23`) with no signature. -/
theorem claim_C1_witness :
    simplify_element ([1, 2] ++ [2, 3]) none =
      some (mElems [1, 2] [2, 3], mFac none [1, 2] [2, 3]) ∧
      (mElems [1, 2] [2, 3]).Pairwise (· < ·) :=
  claim_C1 [1, 2] [2, 3] none (by decide) (by decide) (by decide)

/-- C5: the geometric product distributes over addition: for multivectors
`A`, `B`, `C` with matching signatures, whenever the products `A*B` and
`A*C` both succeed (no missing signature entry), `A*(B+C)` succeeds and
equals `A*B + A*C` exactly (same blades, same signature). -/
theorem claim_C5 (A B C AB AC BC : MultiVector)
    (hB : B.signature = A.signature) (hC : C.signature = A.signature)
    (hAB : A.mul B = .ok AB) (hAC : A.mul C = .ok AC)
    (hBC : B.add C = .ok BC) :
    A.mul BC = AB.add AC := by
  rcases mul_ok_elim hB hAB with ⟨LB, hLB, hABv⟩
  rcases mul_ok_elim hC hAC with ⟨LC, hLC, hACv⟩
  have hCB : C.signature = B.signature := hC.trans hB.symm
  unfold MultiVector.add at hBC
  rw [if_pos hCB] at hBC
  have hBCv : MultiVector.init (B.blades ++ C.blades) B.signature = BC :=
    Except.ok.inj hBC
  have hBCsig : BC.signature = A.signature := by
    rw [← hBCv]
    exact hB
  have hBCbl : BC.blades = simplify_blades (B.blades ++ C.blades) := by
    rw [← hBCv]; rfl
  have hsome : ∀ a ∈ A.blades, ∀ b ∈ BC.blades,
      (simplify_element (a.2 ++ b.2) A.signature).isSome = true := by
    intro a ha b hb
    rw [hBCbl] at hb
    have h0 := keys_simplifyBladesGo [] (B.blades ++ C.blades) b hb
    rw [List.reverse_nil, List.nil_append] at h0
    rcases List.mem_map.mp h0 with ⟨b2, hb2, hbeq⟩
    rcases List.mem_append.mp hb2 with h | h
    · have h1 := mulList_some_forall hLB a ha b2 h
      rwa [hbeq] at h1
    · have h1 := mulList_some_forall hLC a ha b2 h
      rwa [hbeq] at h1
  rcases mulList_isSome hsome with ⟨L, hL⟩
  have hABsig : AB.signature = A.signature := by rw [hABv]; rfl
  have hACsig : AC.signature = A.signature := by rw [hACv]; rfl
  have hden : ∀ k, den (simplify_blades L) k =
      den (simplify_blades (AB.blades ++ AC.blades)) k := by
    intro k
    rw [den_simplify_blades, den_simplify_blades]
    have h1 : den L k = ((B.blades ++ C.blades).map fun b =>
        cA A.signature A.blades b.2 k * b.1).sum := by
      rw [den_mulList k A.blades BC.blades L hL]
      exact sum_den_congr (fun e => cA A.signature A.blades e k)
        fun k2 => by rw [hBCbl, den_simplify_blades]
    have h2 : den LB k = (B.blades.map fun b =>
        cA A.signature A.blades b.2 k * b.1).sum :=
      den_mulList k A.blades B.blades LB hLB
    have h3 : den LC k = (C.blades.map fun b =>
        cA A.signature A.blades b.2 k * b.1).sum :=
      den_mulList k A.blades C.blades LC hLC
    calc den L k
        = ((B.blades ++ C.blades).map fun b =>
            cA A.signature A.blades b.2 k * b.1).sum := h1
      _ = den LB k + den LC k := by
          rw [List.map_append, List.sum_append, h2, h3]
      _ = den AB.blades k + den AC.blades k := by
          rw [hABv, hACv]
          show den LB k + den LC k =
            den (simplify_blades LB) k + den (simplify_blades LC) k
          rw [den_simplify_blades, den_simplify_blades]
      _ = den (AB.blades ++ AC.blades) k := (den_append _ _ k).symm
  have hbl : simplify_blades L = simplify_blades (AB.blades ++ AC.blades) :=
    bladesCanon_unique (simplify_blades_canon L) (simplify_blades_canon _) hden
  rw [mul_ok_intro hBCsig hL]
  have hadd : AB.add AC =
      .ok (MultiVector.init (AB.blades ++ AC.blades) AB.signature) := by
    unfold MultiVector.add
    rw [if_pos (hACsig.trans hABsig.symm)]
  rw [hadd, hABsig]
  unfold MultiVector.init
  rw [hbl]

/-- C5 (witness): distributivity at the concrete instance `A = 2`,
`B = e1`, `C = 3*e1` (no signature): `A*B = 2*e1`, `A*C = 6*e1`,
`B + C = 4*e1`, and `A*(B+C) = A*B + A*C`. -/
theorem claim_C5_witness :
    (MultiVector.mk [(2, [])] none).mul (MultiVector.mk [(1, [1])] none) =
        .ok (MultiVector.mk [(2, [1])] none) ∧
    (MultiVector.mk [(2, [])] none).mul (MultiVector.mk [(3, [1])] none) =
        .ok (MultiVector.mk [(6, [1])] none) ∧
    (MultiVector.mk [(1, [1])] none).add (MultiVector.mk [(3, [1])] none) =
        .ok (MultiVector.mk [(4, [1])] none) ∧
    (MultiVector.mk [(2, [])] none).mul (MultiVector.mk [(4, [1])] none) =
        (MultiVector.mk [(2, [1])] none).add (MultiVector.mk [(6, [1])] none) := by
  have h1 : simplify_element ([1] : List ℤ) none = some ([1], 1) :=
    simplify_element_sorted none [1] (by decide)
  have hAB : (MultiVector.mk [(2, [])] none).mul
      (MultiVector.mk [(1, [1])] none) =
      .ok (MultiVector.mk [(2, [1])] none) := by
    norm_num [MultiVector.mul, mulList, prodRows, mulTerm, h1, optList,
      MultiVector.init, simplify_blades_single]
  have hAC : (MultiVector.mk [(2, [])] none).mul
      (MultiVector.mk [(3, [1])] none) =
      .ok (MultiVector.mk [(6, [1])] none) := by
    norm_num [MultiVector.mul, mulList, prodRows, mulTerm, h1, optList,
      MultiVector.init, simplify_blades_single]
  have hBC : (MultiVector.mk [(1, [1])] none).add
      (MultiVector.mk [(3, [1])] none) =
      .ok (MultiVector.mk [(4, [1])] none) := by
    have hsb : simplify_blades [((1 : ℚ), [1]), ((3 : ℚ), [1])] =
        [((4 : ℚ), [1])] := by
      rw [simplify_blades, sbg_merge (by norm_num) (by norm_num),
        sbg_last (by norm_num)]
      norm_num
    norm_num [MultiVector.add, MultiVector.init, hsb]
  exact ⟨hAB, hAC, hBC,
    claim_C5 ⟨[(2, [])], none⟩ ⟨[(1, [1])], none⟩ ⟨[(3, [1])], none⟩
      ⟨[(2, [1])], none⟩ ⟨[(6, [1])], none⟩ ⟨[(4, [1])], none⟩
      rfl rfl hAB hAC hBC⟩

/-- C7 (counterexample): three concrete divisions refuting the claim.
First, dividing by the two-blade multivector `3 + 4*e12` SUCCEEDS (its
self-product with its reverse is the scalar `25`), so division by a
multivector with more than one blade is not unsupported.  Second, dividing
by the zero multivector raises `ZeroDivisionError`, not the NonInvertible
`ValueError`.  Third, dividing by the null-square blade `e1` under the
signature `{1: 0}` also raises `ZeroDivisionError`, not `ValueError`. -/
theorem claim_C7_counterexample :
    (MultiVector.mk [(1, [])] none).div
        (MultiVector.mk [(3, []), (4, [1, 2])] none) =
      .ok (MultiVector.mk [(3 / 25, []), (-4 / 25, [1, 2])] none) ∧
    (MultiVector.mk [(1, [])] none).div (MultiVector.mk [] none) =
      .error .zeroDivErr ∧
    (MultiVector.mk [(1, [1])] (some [(1, 0)])).div
        (MultiVector.mk [(1, [1])] (some [(1, 0)])) =
      .error .zeroDivErr := by
  have he0 : simplify_element ([] : List ℤ) none = some ([], 1) := by
    rw [simplify_element, seg_term]
    rfl
  have he12 : simplify_element ([1, 2] : List ℤ) none = some ([1, 2], 1) :=
    simplify_element_sorted none [1, 2] (by decide)
  have he1212 : simplify_element ([1, 2, 1, 2] : List ℤ) none =
      some ([], -1) := by
    rw [simplify_element, seg_adv (by norm_num), seg_swap_cons (by norm_num),
      seg_contract rfl (sigSquare_none 1), seg_contract rfl (sigSquare_none 2),
      seg_term]
    norm_num
  have hsb1 : simplify_blades [((3 : ℚ), ([] : List ℤ)), (-4, [1, 2])] =
      [((3 : ℚ), ([] : List ℤ)), (-4, [1, 2])] :=
    simplify_blades_pair (by norm_num) (by norm_num) (by decide) (by decide)
  have hrev : (MultiVector.mk [(3, []), (4, [1, 2])] none).reverse =
      MultiVector.mk [(3, []), (-4, [1, 2])] none := by
    norm_num [MultiVector.reverse, MultiVector.init, hsb1]
  have hsbP : simplify_blades
      [((9 : ℚ), ([] : List ℤ)), (-12, [1, 2]), (12, [1, 2]), (16, [])] =
      [((25 : ℚ), ([] : List ℤ))] := by
    rw [simplify_blades]
    rw [sbg_adv (by norm_num) (by decide) (by decide)]
    rw [sbg_merge (by norm_num) (by decide)]
    rw [sbg_pop_cons (by norm_num)]
    rw [sbg_merge (by norm_num) (by decide)]
    rw [sbg_last (by norm_num)]
    norm_num
  have hP : (MultiVector.mk [(3, []), (4, [1, 2])] none).mul
      (MultiVector.mk [(3, []), (-4, [1, 2])] none) =
      .ok (MultiVector.mk [(25, [])] none) := by
    norm_num [MultiVector.mul, mulList, prodRows, mulTerm, he0, he12, he1212,
      optList, MultiVector.init, hsbP]
  have hsb3 : simplify_blades
      [((3 : ℚ) / 25, ([] : List ℤ)), (-(4 / 25), [1, 2])] =
      [((3 : ℚ) / 25, ([] : List ℤ)), (-(4 / 25), [1, 2])] :=
    simplify_blades_pair (by norm_num) (by norm_num) (by decide) (by decide)
  have hvinv : (MultiVector.mk [(3, []), (-4, [1, 2])] none).mul
      (MultiVector.mk [((1 : ℚ) / 25, [])] none) =
      .ok (MultiVector.mk [(3 / 25, []), (-4 / 25, [1, 2])] none) := by
    norm_num [MultiVector.mul, mulList, prodRows, mulTerm, he0, he12,
      optList, MultiVector.init, hsb3]
  have hAv : (MultiVector.mk [(1, [])] none).mul
      (MultiVector.mk [(3 / 25, []), (-4 / 25, [1, 2])] none) =
      .ok (MultiVector.mk [(3 / 25, []), (-4 / 25, [1, 2])] none) := by
    norm_num [MultiVector.mul, mulList, prodRows, mulTerm, he0, he12,
      optList, MultiVector.init, hsb3]
  refine ⟨?_, ?_, ?_⟩
  · have hPr : (MultiVector.mk [(3, []), (4, [1, 2])] none).mul
        (MultiVector.mk [(3, []), (4, [1, 2])] none).reverse =
        .ok (MultiVector.mk [(25, [])] none) := by
      rw [hrev]
      exact hP
    have hf25 : floatQ (MultiVector.mk [(25, [])] none) = some 25 := by
      norm_num [floatQ]
    have hinit : MultiVector.init [((1 : ℚ) / 25, [])] none =
        MultiVector.mk [((1 : ℚ) / 25, [])] none := by
      unfold MultiVector.init
      rw [simplify_blades_single (by norm_num)]
    have hWr : (MultiVector.mk [(3, []), (4, [1, 2])] none).reverse.mul
        (MultiVector.init [((1 : ℚ) / 25, [])] none) =
        .ok (MultiVector.mk [(3 / 25, []), (-4 / 25, [1, 2])] none) := by
      rw [hrev, hinit]
      exact hvinv
    rw [div_eval_pos_ok (show (MultiVector.mk [(3, []), (4, [1, 2])] none).signature =
        (MultiVector.mk [(1, [])] none).signature from rfl) hPr hf25
      (by norm_num) hWr]
    exact hAv
  · have hsbnil : simplify_blades ([] : List Blade) = [] := by
      rw [simplify_blades, sbg_nil]
      rfl
    have hrev0 : (MultiVector.mk ([] : List Blade) none).reverse =
        MultiVector.mk [] none := by
      norm_num [MultiVector.reverse, MultiVector.init, hsbnil]
    have hP0 : (MultiVector.mk ([] : List Blade) none).mul
        (MultiVector.mk [] none) = .ok (MultiVector.mk [] none) := by
      norm_num [MultiVector.mul, mulList, prodRows, optList,
        MultiVector.init, hsbnil]
    exact div_eval_zero (show (MultiVector.mk ([] : List Blade) none).signature =
        (MultiVector.mk [(1, [])] none).signature from rfl)
      (by rw [hrev0]; exact hP0) (by norm_num [floatQ])
  · have hsbz : simplify_blades [((0 : ℚ), ([] : List ℤ))] = [] := by
      rw [simplify_blades, sbg_pop_nil rfl, sbg_nil]
      rfl
    have heNN : simplify_element ([1, 1] : List ℤ) (some [(1, 0)]) =
        some ([], 0) := by
      rw [simplify_element, seg_contract rfl (by rfl), seg_term]
      norm_num
    have hrevN : (MultiVector.mk [((1 : ℚ), [1])] (some [(1, 0)])).reverse =
        MultiVector.mk [((1 : ℚ), [1])] (some [(1, 0)]) := by
      norm_num [MultiVector.reverse, MultiVector.init, simplify_blades_single]
    have hPN : (MultiVector.mk [((1 : ℚ), [1])] (some [(1, 0)])).mul
        (MultiVector.mk [((1 : ℚ), [1])] (some [(1, 0)])) =
        .ok (MultiVector.mk [] (some [(1, 0)])) := by
      norm_num [MultiVector.mul, mulList, prodRows, mulTerm, heNN,
        optList, MultiVector.init, hsbz]
    exact div_eval_zero rfl (by rw [hrevN]; exact hPN) (by norm_num [floatQ])

/-- C7 (amended): for a divisor `B` with a matching signature whose
self-product with its reverse evaluates to `P`, `A / B` raises the
NonInvertible `ValueError` exactly when `P` is not reducible to a float
(more than one blade, or a single non-scalar blade); when `P` reduces to
the float `0.0` — dividing by zero or by null-square blades — the division
instead raises an uncaught `ZeroDivisionError`.  Being a scalar or a
single blade is irrelevant: any divisor whose self-product with its
reverse is a nonzero scalar divides successfully. -/
theorem claim_C7 (A B P : MultiVector) (hsig : B.signature = A.signature)
    (hP : B.mul B.reverse = .ok P) :
    (A.div B = .error .valueErr ↔ floatQ P = none) ∧
    (floatQ P = some 0 → A.div B = .error .zeroDivErr) := by
  refine ⟨⟨?_, fun hf => div_eval_none hsig hP hf⟩,
    fun hf => div_eval_zero hsig hP hf⟩
  intro hdiv
  cases hf : floatQ P with
  | none => rfl
  | some n2 =>
      exfalso
      by_cases h0 : n2 = 0
      · subst h0
        rw [div_eval_zero hsig hP hf] at hdiv
        exact PyErr.noConfusion (Except.error.inj hdiv)
      · rcases mul_cases B.reverse
            (MultiVector.init [(1 / n2, [])] B.signature)
          with ⟨vinv, hW⟩ | hW | hW
        · rw [div_eval_pos_ok hsig hP hf h0 hW] at hdiv
          rcases mul_cases A vinv with ⟨R, hR⟩ | hR | hR
          · rw [hR] at hdiv; exact Except.noConfusion hdiv
          · rw [hR] at hdiv; exact PyErr.noConfusion (Except.error.inj hdiv)
          · rw [hR] at hdiv; exact PyErr.noConfusion (Except.error.inj hdiv)
        · rw [div_eval_pos_err hsig hP hf h0 hW] at hdiv
          exact PyErr.noConfusion (Except.error.inj hdiv)
        · rw [div_eval_pos_err hsig hP hf h0 hW] at hdiv
          exact PyErr.noConfusion (Except.error.inj hdiv)

/-- C7 (witness): the amended claim at `A = 1`, `B = 1 + e1` with no
signature: `B * ~B = 2 + 2*e1` is not reducible to a float, so `A / B`
raises the NonInvertible `ValueError`. -/
theorem claim_C7_witness :
    (MultiVector.mk [(1, []), (1, [1])] none).mul
        (MultiVector.mk [(1, []), (1, [1])] none).reverse =
      .ok (MultiVector.mk [(2, []), (2, [1])] none) ∧
    (MultiVector.mk [(1, [])] none).div
        (MultiVector.mk [(1, []), (1, [1])] none) = .error .valueErr := by
  have he0 : simplify_element ([] : List ℤ) none = some ([], 1) := by
    rw [simplify_element, seg_term]
    rfl
  have he1 : simplify_element ([1] : List ℤ) none = some ([1], 1) :=
    simplify_element_sorted none [1] (by decide)
  have he11 : simplify_element ([1, 1] : List ℤ) none = some ([], 1) := by
    rw [simplify_element, seg_contract rfl (sigSquare_none 1), seg_term]
    norm_num
  have hsbB : simplify_blades [((1 : ℚ), ([] : List ℤ)), (1, [1])] =
      [((1 : ℚ), ([] : List ℤ)), (1, [1])] :=
    simplify_blades_pair (by norm_num) (by norm_num) (by decide) (by decide)
  have hrev : (MultiVector.mk [(1, []), (1, [1])] none).reverse =
      MultiVector.mk [(1, []), (1, [1])] none := by
    norm_num [MultiVector.reverse, MultiVector.init, hsbB]
  have hsbP : simplify_blades
      [((1 : ℚ), ([] : List ℤ)), (1, [1]), (1, [1]), (1, [])] =
      [((2 : ℚ), ([] : List ℤ)), (2, [1])] := by
    rw [simplify_blades]
    rw [sbg_adv (by norm_num) (by decide) (by decide)]
    rw [sbg_merge (by norm_num) (by decide)]
    rw [sbg_swap_cons (by norm_num) (by decide) (by decide)]
    rw [sbg_merge (by norm_num) (by decide)]
    rw [sbg_adv (by norm_num) (by decide) (by decide)]
    rw [sbg_last (by norm_num)]
    norm_num
  have hP : (MultiVector.mk [(1, []), (1, [1])] none).mul
      (MultiVector.mk [(1, []), (1, [1])] none) =
      .ok (MultiVector.mk [(2, []), (2, [1])] none) := by
    norm_num [MultiVector.mul, mulList, prodRows, mulTerm, he0, he1, he11,
      optList, MultiVector.init, hsbP]
  have hPr : (MultiVector.mk [(1, []), (1, [1])] none).mul
      (MultiVector.mk [(1, []), (1, [1])] none).reverse =
      .ok (MultiVector.mk [(2, []), (2, [1])] none) := by
    rw [hrev]
    exact hP
  exact ⟨hPr,
    (claim_C7 (MultiVector.mk [(1, [])] none)
      (MultiVector.mk [(1, []), (1, [1])] none)
      (MultiVector.mk [(2, []), (2, [1])] none) rfl hPr).1.mpr rfl⟩

/-- C9: exponentiation, for a canonical multivector `A` (simplified blade
list, each basis element sorted — the invariants maintained by the
library's own operations): `A ** 0` is the Python integer `1`; for
`n = k + 1 ≥ 1`, `A ** n` is the `n`-fold geometric product
`A * A * ... * A` (or the `KeyError` that product raises); for negative
`n = -(k + 1)`, it is `1 / (A ** (k + 1))` computed by `__rtruediv__`.  A
non-integer exponent is rejected by the `assert type(n) == int`, which the
embedding enforces by typing the exponent as `ℤ`. -/
theorem claim_C9 (A : MultiVector) (hcanon : BladesCanon A.blades)
    (hsorted : ∀ b ∈ A.blades, b.2.Pairwise (· < ·)) :
    A.pow 0 = .ok (.num 1) ∧
    (∀ k : ℕ, A.pow ((k : ℤ) + 1) = (nfoldGeom A k).map NumOrMV.mv) ∧
    (∀ k : ℕ, A.pow (-((k : ℤ) + 1)) =
      match nfoldGeom A k with
      | .error e => .error e
      | .ok w => (w.rdivNum 1).map NumOrMV.mv) := by
  refine ⟨rfl, ?_, ?_⟩
  · intro k
    have h : ((k : ℤ) + 1).natAbs = k + 1 := by omega
    cases hw : nfoldGeom A k with
    | error e =>
        have hl : powLoop A ((k : ℤ) + 1).natAbs = .error e := by
          rw [h, powLoop_nfold hcanon hsorted k, hw]
          rfl
        rw [pow_eval_err hl]
        rfl
    | ok w =>
        have hl : powLoop A ((k : ℤ) + 1).natAbs = .ok (.mv w) := by
          rw [h, powLoop_nfold hcanon hsorted k, hw]
          rfl
        rw [pow_eval_nonneg (by omega) hl]
        rfl
  · intro k
    have h : (-((k : ℤ) + 1)).natAbs = k + 1 := by omega
    cases hw : nfoldGeom A k with
    | error e =>
        have hl : powLoop A (-((k : ℤ) + 1)).natAbs = .error e := by
          rw [h, powLoop_nfold hcanon hsorted k, hw]
          rfl
        rw [pow_eval_err hl]
    | ok w =>
        have hl : powLoop A (-((k : ℤ) + 1)).natAbs = .ok (.mv w) := by
          rw [h, powLoop_nfold hcanon hsorted k, hw]
          rfl
        rw [pow_eval_neg_mv (by omega) hl]

/-- C9 (witness): the scalar multivector `A = 2` (no signature) satisfies
the canonicity hypotheses, `A ** 0 = 1` and `A ** 2` is the 2-fold
product `A * A`. -/
theorem claim_C9_witness :
    (MultiVector.mk [(2, [])] none).pow 0 = .ok (.num 1) ∧
    (MultiVector.mk [(2, [])] none).pow ((1 : ℤ) + 1) =
      (nfoldGeom (MultiVector.mk [(2, [])] none) 1).map NumOrMV.mv := by
  have h := claim_C9 (MultiVector.mk [(2, [])] none)
    ⟨by simp, by norm_num⟩ (by simp)
  exact ⟨h.1, h.2.1 1⟩

/-- C10: `dot(a, b)` and `wedge(a, b)` fail with an `AssertionError`
whenever either operand has an empty blade list (the zero multivector,
which vacuously satisfies the homogeneity check, is rejected by the
nonemptiness `assert`); a scalar operand — a single grade-0 blade — is
accepted and treated as grade `0`: against a homogeneous operand of grade
`gb` both products project the geometric product onto grade
`|0 - gb| = 0 + gb = gb`. -/
theorem claim_C10 :
    (∀ a b : MultiVector, a.blades = [] ∨ b.blades = [] →
      dot a b = .error .assertErr ∧ wedge a b = .error .assertErr) ∧
    (∀ (a b : MultiVector) (x : ℚ) (gb : ℕ) (P : MultiVector),
      a.blades = [(x, [])] → b.blades ≠ [] →
      (∀ bl ∈ b.blades, bl.2.length = gb) → a.mul b = .ok P →
      dot a b = .ok (P.getItem gb) ∧ wedge a b = .ok (P.getItem gb)) := by
  constructor
  · intro a b h
    rcases h with ha | hb
    · exact ⟨dot_err_left ha, wedge_err_left ha⟩
    · cases hA : a.blades with
      | nil => exact ⟨dot_err_left hA, wedge_err_left hA⟩
      | cons a0 as =>
          have hga : a.blades.map (fun bl => bl.2.length) =
              a0.2.length :: as.map (fun bl => bl.2.length) := by
            rw [hA, List.map_cons]
          exact ⟨dot_err_right hga hb, wedge_err_right hga hb⟩
  · intro a b x gb P ha hb hgb hP
    cases hB : b.blades with
    | nil => exact absurd hB hb
    | cons b0 bs =>
        have hga : a.blades.map (fun bl => bl.2.length) =
            0 :: ([] : List ℕ) := by
          rw [ha]
          rfl
        have hgb0 : b0.2.length = gb :=
          hgb b0 (by rw [hB]; exact List.mem_cons_self b0 bs)
        have hgbl : b.blades.map (fun bl => bl.2.length) =
            gb :: bs.map (fun bl => bl.2.length) := by
          rw [hB, List.map_cons, hgb0]
        have hallB : ((gb :: bs.map fun bl => bl.2.length).all
            (· = gb)) = true := by
          rw [List.all_eq_true]
          intro g hg
          rcases List.mem_cons.mp hg with h1 | h1
          · subst h1
            simp
          · rcases List.mem_map.mp h1 with ⟨bl, hbl, hbleq⟩
            have h2 : bl.2.length = gb :=
              hgb bl (by rw [hB]; exact List.mem_cons_of_mem b0 hbl)
            rw [← hbleq, h2]
            simp
        have hd := dot_eval hga hgbl (by simp) hallB
        have hw := wedge_eval hga hgbl (by simp) hallB
        rw [hP] at hd hw
        have hnat : ((((0 : ℕ) : ℤ)) - (gb : ℤ)).natAbs = gb := by omega
        have hadd : 0 + gb = gb := by omega
        rw [hnat] at hd
        rw [hadd] at hw
        exact ⟨hd.trans (except_map_ok _ _), hw.trans (except_map_ok _ _)⟩

/-- C10 (witness): `dot` rejects the zero multivector on the left, and the
scalar `2` dots and wedges with the vector `3*e1` to the grade-1 part of
their product `6*e1`. -/
theorem claim_C10_witness :
    dot (MultiVector.mk [] none) (MultiVector.mk [(1, [1])] none) =
      .error .assertErr ∧
    dot (MultiVector.mk [(2, [])] none) (MultiVector.mk [(3, [1])] none) =
      .ok ((MultiVector.mk [(6, [1])] none).getItem 1) ∧
    wedge (MultiVector.mk [(2, [])] none) (MultiVector.mk [(3, [1])] none) =
      .ok ((MultiVector.mk [(6, [1])] none).getItem 1) := by
  have h1 : simplify_element ([1] : List ℤ) none = some ([1], 1) :=
    simplify_element_sorted none [1] (by decide)
  have hmul : (MultiVector.mk [(2, [])] none).mul
      (MultiVector.mk [(3, [1])] none) =
      .ok (MultiVector.mk [(6, [1])] none) := by
    norm_num [MultiVector.mul, mulList, prodRows, mulTerm, h1, optList,
      MultiVector.init, simplify_blades_single]
  have h := claim_C10
  have h2 := h.2 (MultiVector.mk [(2, [])] none)
    (MultiVector.mk [(3, [1])] none) 2 1 (MultiVector.mk [(6, [1])] none)
    rfl (List.cons_ne_nil _ _)
    (by intro bl hbl
        rw [List.mem_singleton] at hbl
        subst hbl
        rfl)
    hmul
  exact ⟨(h.1 (MultiVector.mk [] none) (MultiVector.mk [(1, [1])] none)
    (Or.inl rfl)).1, h2.1, h2.2⟩

/-- C6: division round trip, for a canonical multivector `A` (simplified
blade list, sorted basis elements) and a single-blade divisor `B` with
nonzero coefficient, sorted element, matching signature and nonzero
squares under the signature for every index of the blade: `A / B`
succeeds, and `(A / B) * B` returns exactly `A`. -/
theorem claim_C6 (A B : MultiVector) (y : ℚ) (e : Elem)
    (hAc : BladesCanon A.blades)
    (hAs : ∀ b ∈ A.blades, b.2.Pairwise (· < ·))
    (hB : B.blades = [(y, e)]) (hy : y ≠ 0) (he : e.Pairwise (· < ·))
    (hsig : B.signature = A.signature)
    (hsq : ∀ i ∈ e, ∃ v, sigSquare A.signature i = some v ∧ v ≠ 0) :
    ∃ Q, A.div B = .ok Q ∧ Q.mul B = .ok A := by
  have hsq2 : ∀ i ∈ e, (sigSquare A.signature i).isSome = true := by
    intro i hi
    rcases hsq i hi with ⟨v, hv, _⟩
    rw [hv]
    rfl
  -- the reverse of B
  obtain ⟨yr, hyr0, hrevmap⟩ : ∃ yr : ℚ, yr ≠ 0 ∧
      (B.blades.map fun b =>
        if (b.2.length / 2) % 2 = 1 then (-b.1, b.2) else b) = [(yr, e)] := by
    by_cases hc : (e.length / 2) % 2 = 1
    · exact ⟨-y, neg_ne_zero.mpr hy, by rw [hB]; simp [hc]⟩
    · exact ⟨y, hy, by rw [hB]; simp [hc]⟩
  have hrevB : B.reverse = ⟨[(yr, e)], B.signature⟩ := by
    unfold MultiVector.reverse
    rw [hrevmap]
    unfold MultiVector.init
    rw [simplify_blades_single hyr0]
  -- B * ~B is the scalar mFac(e,e) * y * yr
  have hee : simplify_element (e ++ e) A.signature =
      some (mElems e e, mFac A.signature e e) :=
    simplify_element_mergeClosed A.signature he he fun x hx _ => hsq2 x hx
  rw [mElems_self he] at hee
  have hfe0 : mFac A.signature e e ≠ 0 := mFac_ne_zero hsq
  have hn2 : mFac A.signature e e * y * yr ≠ 0 :=
    mul_ne_zero (mul_ne_zero hfe0 hy) hyr0
  have hBBr : B.mul B.reverse =
      .ok (MultiVector.init [(mFac A.signature e e * y * yr, [])]
        B.signature) := by
    refine mul_ok_intro (by rw [hrevB]) ?_
    have hbl : (B.reverse).blades = [(yr, e)] := by rw [hrevB]
    rw [hbl, hB, hsig]
    exact mulList_single hee
  have hPv : MultiVector.init [(mFac A.signature e e * y * yr, [])]
      B.signature =
      ⟨[(mFac A.signature e e * y * yr, [])], B.signature⟩ := by
    unfold MultiVector.init
    rw [simplify_blades_single hn2]
  rw [hPv] at hBBr
  have hfP : floatQ ⟨[(mFac A.signature e e * y * yr, [])], B.signature⟩ =
      some (mFac A.signature e e * y * yr) := rfl
  -- the inverse multivector
  have hen : simplify_element (e ++ []) A.signature = some (e, 1) := by
    rw [List.append_nil]
    exact simplify_element_sorted A.signature e he
  have hyrn : (1 : ℚ) * yr * (1 / (mFac A.signature e e * y * yr)) ≠ 0 :=
    mul_ne_zero (by simpa using hyr0) (one_div_ne_zero hn2)
  have hinitv : MultiVector.init
      [(1 / (mFac A.signature e e * y * yr), [])] B.signature =
      ⟨[(1 / (mFac A.signature e e * y * yr), [])], B.signature⟩ := by
    unfold MultiVector.init
    rw [simplify_blades_single (one_div_ne_zero hn2)]
  have hvinvmk : MultiVector.init
      [(1 * yr * (1 / (mFac A.signature e e * y * yr)), e)]
      (B.reverse).signature =
      ⟨[(1 * yr * (1 / (mFac A.signature e e * y * yr)), e)],
        B.signature⟩ := by
    unfold MultiVector.init
    rw [simplify_blades_single hyrn, hrevB]
  have hW : (B.reverse).mul (MultiVector.init
      [(1 / (mFac A.signature e e * y * yr), [])] B.signature) =
      .ok ⟨[(1 * yr * (1 / (mFac A.signature e e * y * yr)), e)],
        B.signature⟩ := by
    rw [hinitv]
    have h1 : (B.reverse).mul
        ⟨[(1 / (mFac A.signature e e * y * yr), [])], B.signature⟩ =
        .ok (MultiVector.init
          [(1 * yr * (1 / (mFac A.signature e e * y * yr)), e)]
          (B.reverse).signature) := by
      refine mul_ok_intro (by rw [hrevB]) ?_
      have hbl : (B.reverse).blades = [(yr, e)] := by rw [hrevB]
      have hss : (B.reverse).signature = B.signature := by rw [hrevB]
      rw [hbl, hss, hsig]
      exact mulList_single hen
    rw [h1, hvinvmk]
  have hAdiv : A.div B = A.mul
      ⟨[(1 * yr * (1 / (mFac A.signature e e * y * yr)), e)],
        B.signature⟩ :=
    div_eval_pos_ok hsig hBBr hfP hn2 hW
  -- generalize the inverse coefficient
  obtain ⟨C, hCkey, hAdiv⟩ : ∃ C : ℚ,
      mFac A.signature e e * C * y = 1 ∧
      A.div B = A.mul ⟨[(C, e)], B.signature⟩ := by
    refine ⟨_, ?_, hAdiv⟩
    field_simp
    ring
  -- the quotient Q = A * vinv
  have hmlQ : mulList A.signature A.blades [(C, e)] =
      some (A.blades.map fun a =>
        (mFac A.signature a.2 e * a.1 * C, mElems a.2 e)) :=
    mulList_mergeRow he hsq2 C A.blades hAs
  have hQ : A.mul ⟨[(C, e)], B.signature⟩ =
      .ok (MultiVector.init (A.blades.map fun a =>
        (mFac A.signature a.2 e * a.1 * C, mElems a.2 e)) A.signature) := by
    refine mul_ok_intro ?_ ?_
    · exact hsig
    · exact hmlQ
  rw [hQ] at hAdiv
  refine ⟨_, hAdiv, ?_⟩
  -- elements of Q are symmetric differences with e, hence sorted
  have hQs : ∀ q ∈ simplify_blades (A.blades.map fun a =>
      (mFac A.signature a.2 e * a.1 * C, mElems a.2 e)),
      q.2.Pairwise (· < ·) := by
    intro q hq
    have h0 := keys_simplifyBladesGo [] _ q hq
    rw [List.reverse_nil, List.nil_append, List.map_map] at h0
    rcases List.mem_map.mp h0 with ⟨a, ha, haeq⟩
    have : (Prod.snd ∘ fun a : Blade =>
        (mFac A.signature a.2 e * a.1 * C, mElems a.2 e)) a =
        mElems a.2 e := rfl
    rw [this] at haeq
    rw [← haeq]
    exact mElems_sorted e a.2 (hAs a ha) he
  -- the final product, blade by blade
  have hmlR : mulList A.signature (simplify_blades (A.blades.map fun a =>
      (mFac A.signature a.2 e * a.1 * C, mElems a.2 e))) [(y, e)] =
      some ((simplify_blades (A.blades.map fun a =>
        (mFac A.signature a.2 e * a.1 * C, mElems a.2 e))).map fun q =>
          (mFac A.signature q.2 e * q.1 * y, mElems q.2 e)) :=
    mulList_mergeRow he hsq2 y _ hQs
  have hR : (MultiVector.init (A.blades.map fun a =>
      (mFac A.signature a.2 e * a.1 * C, mElems a.2 e)) A.signature).mul B =
      .ok (MultiVector.init ((simplify_blades (A.blades.map fun a =>
        (mFac A.signature a.2 e * a.1 * C, mElems a.2 e))).map fun q =>
          (mFac A.signature q.2 e * q.1 * y, mElems q.2 e)) A.signature) := by
    refine mul_ok_intro ?_ ?_
    · exact hsig
    · rw [hB]
      exact hmlR
  rw [hR]
  -- the denotation of the result agrees with A everywhere
  have hden : ∀ k : Elem, den (simplify_blades
      ((simplify_blades (A.blades.map fun a =>
        (mFac A.signature a.2 e * a.1 * C, mElems a.2 e))).map fun q =>
          (mFac A.signature q.2 e * q.1 * y, mElems q.2 e))) k =
      den A.blades k := by
    intro k
    rw [den_simplify_blades, den_eq_sum, List.map_map]
    have hstep1 : ((simplify_blades (A.blades.map fun a =>
        (mFac A.signature a.2 e * a.1 * C, mElems a.2 e))).map
        ((fun b : Blade => if b.2 = k then b.1 else 0) ∘ fun q =>
          (mFac A.signature q.2 e * q.1 * y, mElems q.2 e))).sum =
        ((simplify_blades (A.blades.map fun a =>
          (mFac A.signature a.2 e * a.1 * C, mElems a.2 e))).map fun q =>
            (if mElems q.2 e = k then mFac A.signature q.2 e * y else 0) *
              q.1).sum := by
      refine congrArg List.sum (List.map_congr_left fun q _ => ?_)
      simp only [Function.comp]
      by_cases hq : mElems q.2 e = k
      · rw [if_pos hq, if_pos hq]
        ring
      · rw [if_neg hq, if_neg hq, zero_mul]
    rw [hstep1,
      sum_den_congr (fun e2 =>
        if mElems e2 e = k then mFac A.signature e2 e * y else 0)
        (fun k2 => den_simplify_blades _ k2),
      List.map_map]
    have hstep2 : (A.blades.map ((fun q : Blade =>
        (if mElems q.2 e = k then mFac A.signature q.2 e * y else 0) * q.1) ∘
        fun a => (mFac A.signature a.2 e * a.1 * C, mElems a.2 e))).sum =
        (A.blades.map fun b => if b.2 = k then b.1 else 0).sum := by
      refine congrArg List.sum (List.map_congr_left fun a ha => ?_)
      simp only [Function.comp]
      have hinv : mElems (mElems a.2 e) e = a.2 :=
        mElems_invol (hAs a ha) he
      rw [hinv]
      by_cases hk : a.2 = k
      · rw [if_pos hk, if_pos hk]
        have hm := mFac_mul A.signature a.2 e (hAs a ha) he
        calc mFac A.signature (mElems a.2 e) e * y *
              (mFac A.signature a.2 e * a.1 * C)
            = mFac A.signature a.2 e * mFac A.signature (mElems a.2 e) e *
              C * y * a.1 := by ring
          _ = mFac A.signature e e * C * y * a.1 := by rw [hm]
          _ = 1 * a.1 := by rw [hCkey]
          _ = a.1 := one_mul a.1
      · rw [if_neg hk, if_neg hk, zero_mul]
    rw [hstep2, ← den_eq_sum]
  have hblades : simplify_blades
      ((simplify_blades (A.blades.map fun a =>
        (mFac A.signature a.2 e * a.1 * C, mElems a.2 e))).map fun q =>
          (mFac A.signature q.2 e * q.1 * y, mElems q.2 e)) = A.blades :=
    bladesCanon_unique (simplify_blades_canon _) hAc hden
  show Except.ok (MultiVector.init _ A.signature) = Except.ok A
  unfold MultiVector.init
  rw [hblades]

/-- C6 (witness): the round trip at `A = 3 + 4*e12`, `B = 2*e1`, no
signature. -/
theorem claim_C6_witness :
    ∃ Q, (MultiVector.mk [(3, []), (4, [1, 2])] none).div
        (MultiVector.mk [(2, [1])] none) = .ok Q ∧
      Q.mul (MultiVector.mk [(2, [1])] none) =
        .ok (MultiVector.mk [(3, []), (4, [1, 2])] none) :=
  claim_C6 (MultiVector.mk [(3, []), (4, [1, 2])] none)
    (MultiVector.mk [(2, [1])] none) 2 [1]
    ⟨by decide, by norm_num⟩ (by decide) rfl (by norm_num) (by decide) rfl
    (by intro i hi
        exact ⟨1, rfl, one_ne_zero⟩)

end GA